import Mathlib

/-!
Verification development for the core of the `luminal` HTTP router:
a radix-style route tree (`RouteTree` in `router/src/types.rs`), the
path-parameter iterator (`pathparam/src/lib.rs`) and the method-keyed
router facade (`router/src/lib.rs`).

Strings are modelled as `List Char` (`Str`).  Rust's `BTreeMap` is
modelled as an association list with replace-on-insert semantics: the
code only ever uses key lookup and key insert, for which the two are
observationally identical.
-/

set_option autoImplicit false

abbrev Str := List Char

/-- Rust `str::split('/')`: splitting the empty string yields `[""]`. -/
def splitSlash : Str → List Str
  | [] => [[]]
  | c :: r =>
    if c = '/' then [] :: splitSlash r
    else
      match splitSlash r with
      | [] => [[c]]
      | t :: ts => (c :: t) :: ts

/-- Rust `str::trim_right_matches('/')`: drop every trailing `'/'`. -/
def trimTrailingSlashes : Str → Str
  | [] => []
  | c :: cs =>
    match trimTrailingSlashes cs with
    | [] => if c = '/' then [] else [c]
    | r => c :: r

/-- Rust `str::trim_left_matches('/')`: drop every leading `'/'`. -/
def trimLeadingSlashes (s : Str) : Str := s.dropWhile (· = '/')

/-- Rust `str::starts_with(':')` on a path token. -/
def isParam (t : Str) : Bool := t.head? = some ':'

/-- `BTreeMap::get`. -/
def mapGet {A : Type} (k : Str) : List (Str × A) → Option A
  | [] => none
  | (k', v) :: rest => if k' = k then some v else mapGet k rest

/-- `BTreeMap::insert` (replaces the value of an existing key). -/
def mapInsert {A : Type} (k : Str) (v : A) : List (Str × A) → List (Str × A)
  | [] => [(k, v)]
  | (k', v') :: rest => if k' = k then (k, v) :: rest else (k', v') :: mapInsert k v rest

/-- Node of the routing tree (`PathNode` in `router/src/types.rs`):
original mapped path, own segment (`"*"` for a parameter), static
children, optional parameter child, optional handler. -/
inductive PathNode (T : Type) : Type where
  | mk (path : Str) (segment : Str) (next : List (Str × PathNode T))
      (params : Option (PathNode T)) (handler : Option T)

namespace PathNode

variable {T : Type}

def path : PathNode T → Str
  | mk p _ _ _ _ => p

def segment : PathNode T → Str
  | mk _ s _ _ _ => s

def next : PathNode T → List (Str × PathNode T)
  | mk _ _ nx _ _ => nx

def params : PathNode T → Option (PathNode T)
  | mk _ _ _ pr _ => pr

def handler : PathNode T → Option T
  | mk _ _ _ _ h => h

/-- `PathNode::new`. -/
def new (p s : Str) (h : Option T) : PathNode T := mk p s [] none h

def setHandler : PathNode T → Option T → PathNode T
  | mk p s nx pr _, h => mk p s nx pr h

def setNext : PathNode T → List (Str × PathNode T) → PathNode T
  | mk p s _ pr h, nx => mk p s nx pr h

def setParams : PathNode T → Option (PathNode T) → PathNode T
  | mk p s nx _ h, pr => mk p s nx pr h

end PathNode

variable {T : Type}

/-- One wiring step of `RouteTree::wire_handler`: connect `child` to
`par` through the parameter slot if its segment is `"*"`, otherwise
through the static-children map. -/
def attachChild (par child : PathNode T) : PathNode T :=
  if child.segment = ['*'] then par.setParams (some child)
  else par.setNext (mapInsert child.segment child par.next)

/-- The rest of `RouteTree::wire_handler` on a non-empty created stack:
assign the handler to the deepest created node and wire the stack
together from the bottom up. -/
def wireChain : PathNode T → List (PathNode T) → T → PathNode T
  | c, [], h => c.setHandler (some h)
  | c, c' :: cs, h => attachChild c (wireChain c' cs h)

/-- The fold inside `RouteTree::add` once the `created` stack is
non-empty (`c :: cs`, oldest first).  The cursor `n` is the last
existing node; the branch conditions keep consulting it, and it still
descends when a token happens to match one of its edges. -/
def addB (n : PathNode T) (ts : List Str) (acc : Str) (c : PathNode T)
    (cs : List (PathNode T)) (h : T) : PathNode T :=
  match ts with
  | [] => attachChild n (wireChain c cs h)
  | t :: ts' =>
    let acc' := acc ++ '/' :: t
    if isParam t then
      match n.params with
      | some child => n.setParams (some (addB child ts' acc' c cs h))
      | none => addB n ts' acc' c (cs ++ [PathNode.new acc' ['*'] none]) h
    else
      match mapGet t n.next with
      | some child => n.setNext (mapInsert t (addB child ts' acc' c cs h) n.next)
      | none => addB n ts' acc' c (cs ++ [PathNode.new acc' t none]) h

/-- The fold inside `RouteTree::add` while the `created` stack is still
empty: follow existing edges; on the first token with no edge, switch
to `addB` with a one-element created stack.  An empty token list means
the whole route already existed and `wire_handler` assigns the handler
to the cursor. -/
def addA (n : PathNode T) (ts : List Str) (acc : Str) (h : T) : PathNode T :=
  match ts with
  | [] => n.setHandler (some h)
  | t :: ts' =>
    let acc' := acc ++ '/' :: t
    if isParam t then
      match n.params with
      | some child => n.setParams (some (addA child ts' acc' h))
      | none => addB n ts' acc' (PathNode.new acc' ['*'] none) [] h
    else
      match mapGet t n.next with
      | some child => n.setNext (mapInsert t (addA child ts' acc' h) n.next)
      | none => addB n ts' acc' (PathNode.new acc' t none) [] h

/-- `RouteTree<T>`: a root node. -/
structure RouteTree (T : Type) : Type where
  root : PathNode T

/-- `RouteTree::empty_root`. -/
def RouteTree.empty_root : RouteTree T := ⟨PathNode.new ['/'] [] none⟩

/-- `RouteTree::add`.  Rust takes `&mut self` and returns
`Result<&mut Self>`; we return the updated tree together with the
optional error message (`none` = `Ok`).  The error exit happens before
any mutation, so the tree is returned unchanged in that case. -/
def RouteTree.add (r : RouteTree T) (route : Str) (h : T) :
    RouteTree T × Option Str :=
  let path := trimTrailingSlashes route
  let tokens := splitSlash path
  if tokens.head! ≠ [] then
    (r, some ("Paths must start with a slash (/)".toList))
  else if tokens.length = 1 then
    ({ root := r.root.setHandler (some h) }, none)
  else
    ({ root := addA r.root tokens.tail [] h }, none)

/-- `Iter::next` resolution of a single token: a static child wins,
otherwise fall through to the parameter child. -/
def stepNode (n : PathNode T) (t : Str) : Option (PathNode T) :=
  match mapGet t n.next with
  | some c => some c
  | none => n.params

/-- The full sequence of nodes yielded by `Iter` before it first
returns `None` (which is where `Iterator::last`, via `fold`, stops). -/
def iterNodes (n : PathNode T) : List Str → List (PathNode T)
  | [] => []
  | t :: ts =>
    match stepNode n t with
    | some c => c :: iterNodes c ts
    | none => []

/-- `RouteTree::dispatch`. -/
def RouteTree.dispatch (r : RouteTree T) (request_path : Str) :
    Option (Str × Option T) :=
  let path := trimLeadingSlashes request_path
  if path = [] then some (r.root.path, r.root.handler)
  else
    match (iterNodes r.root (splitSlash path)).getLast? with
    | some found => some (found.path, found.handler)
    | none => none

/-- `pathparam::parse` on already-split token lists: zip the route
tokens with the path tokens and keep the pairs whose route token starts
with `':'` (`Parse::next` skips the rest). -/
def parseList (rs ps : List Str) : List (Str × Str) :=
  (rs.zip ps).filter (fun kv => isParam kv.1)

/-- `pathparam::parse`, with the `Parse` iterator materialised as the
list of pairs it yields. -/
def parse (route p : Str) : List (Str × Str) :=
  parseList (splitSlash route) (splitSlash p)

/-- `Router` from `router/src/lib.rs`: a map from method to route tree,
modelled as an association list keyed by an arbitrary method type. -/
def Router (M T : Type) : Type := List (M × RouteTree T)

def assocGet {M T : Type} [DecidableEq M] (m : M) : List (M × T) → Option T
  | [] => none
  | (m', v) :: rest => if m' = m then some v else assocGet m rest

def assocInsert {M T : Type} [DecidableEq M] (m : M) (v : T) :
    List (M × T) → List (M × T)
  | [] => [(m, v)]
  | (m', v') :: rest =>
    if m' = m then (m, v) :: rest else (m', v') :: assocInsert m v rest

/-- `Router::add`: `entry(method).or_insert_with(RouteTree::empty_root)`
registers a tree for the method before `RouteTree::add` runs on it; the
error, if any, is returned alongside the updated state. -/
def Router.add {M : Type} [DecidableEq M] (routes : Router M T) (m : M)
    (route : Str) (h : T) : Router M T × Option Str :=
  let tree := (assocGet m routes).getD RouteTree.empty_root
  let res := tree.add route h
  (assocInsert m res.1 routes, res.2)

/-- `Router::dispatch`: look up the method's tree and delegate; the
declared return type keeps only the handler option of the match. -/
def Router.dispatch {M : Type} [DecidableEq M] (routes : Router M T)
    (m : M) (p : Str) : Option (Option T) :=
  match assocGet m routes with
  | some tree => (tree.dispatch p).map (fun found => found.2)
  | none => none

/-- Observer: walk the tree the way `add` resolves tokens (parameter
tokens through the parameter edge, static tokens through the static
map), returning the node a token list leads to. -/
def walkTokens (n : PathNode T) : List Str → Option (PathNode T)
  | [] => some n
  | t :: ts =>
    match (if isParam t then n.params else mapGet t n.next) with
    | some c => walkTokens c ts
    | none => none

/-- Observer: walk only static edges. -/
def walkStatic (n : PathNode T) : List Str → Option (PathNode T)
  | [] => some n
  | t :: ts =>
    match mapGet t n.next with
    | some c => walkStatic c ts
    | none => none

/-- The pattern string denoted by a token list: `/t₁/t₂/…/tₙ`. -/
def patString : List Str → Str
  | [] => []
  | t :: ts => '/' :: t ++ patString ts

/-- The segment text a created node records for a token
(`"*"` for a parameter token). -/
def segOf (t : Str) : Str := if isParam t then ['*'] else t

/-- The nodes `add`'s fold pushes on the created stack for the tokens
`ts`, given the accumulated path text `acc`. -/
def newNodes (acc : Str) : List Str → List (PathNode T)
  | [] => []
  | t :: ts => PathNode.new (acc ++ '/' :: t) (segOf t) none :: newNodes (acc ++ '/' :: t) ts

/-- The chain of fresh nodes `add` builds for a route suffix `t :: ts`
below a node whose accumulated path is `acc`, carrying the handler on
the terminal node. -/
def chainOf (acc t : Str) (ts : List Str) (h : T) : PathNode T :=
  match ts with
  | [] => PathNode.mk (acc ++ '/' :: t) (segOf t) [] none (some h)
  | t' :: ts' =>
    let child := chainOf (acc ++ '/' :: t) t' ts' h
    if isParam t' then PathNode.mk (acc ++ '/' :: t) (segOf t) [] (some child) none
    else PathNode.mk (acc ++ '/' :: t) (segOf t) [(t', child)] none none

/-- Indices of the parameter segments of a split route pattern. -/
def paramIndices (rs : List Str) : List Nat :=
  (List.range rs.length).filter (fun i => isParam (rs.getD i []))

/-- Concrete tree used by several scenario claims: the single route
`/a/b`. -/
def smallTree : RouteTree Nat := (RouteTree.empty_root.add ("/a/b".toList) 1).1

/-- Concrete tree exhibiting the stale-cursor wiring of `add`: routes
`/a/b` then `/a/c/b`. -/
def staleTree : RouteTree Nat :=
  ((RouteTree.empty_root.add ("/a/b".toList) 1).1.add ("/a/c/b".toList) 2).1

/-- Concrete tree exhibiting parameter renaming: routes `/a/:x` then
`/a/:y`. -/
def renameTree : RouteTree Nat :=
  ((RouteTree.empty_root.add ("/a/:x".toList) 1).1.add ("/a/:y".toList) 2).1

/-- Concrete tree with the single route `/foo`. -/
def fooTree : RouteTree Nat := (RouteTree.empty_root.add ("/foo".toList) 1).1

/-! ### Basic lemmas -/

theorem splitSlash_ne_nil (s : Str) : splitSlash s ≠ [] := by
  induction s with
  | nil => simp [splitSlash]
  | cons c r ih =>
    by_cases h : c = '/'
    · simp [splitSlash, h]
    · simp only [splitSlash, if_neg h]
      cases hr : splitSlash r with
      | nil => simp
      | cons t ts => simp

theorem splitSlash_slash_cons (r : Str) : splitSlash ('/' :: r) = [] :: splitSlash r := by
  simp [splitSlash]

theorem splitSlash_no_slash (t : Str) (h : '/' ∉ t) : splitSlash t = [t] := by
  induction t with
  | nil => simp [splitSlash]
  | cons c r ih =>
    have hc : c ≠ '/' := by
      intro hc; exact h (by simp [hc])
    have hr : '/' ∉ r := fun hm => h (List.mem_cons_of_mem _ hm)
    simp [splitSlash, hc, ih hr]

theorem splitSlash_append_token (t rest : Str) (h : '/' ∉ t) :
    splitSlash (t ++ '/' :: rest) = t :: splitSlash rest := by
  induction t with
  | nil => simp [splitSlash]
  | cons c r ih =>
    have hc : c ≠ '/' := by
      intro hc; exact h (by simp [hc])
    have hr : '/' ∉ r := fun hm => h (List.mem_cons_of_mem _ hm)
    simp [splitSlash, hc, ih hr]

theorem iterNodes_cons_eq_nil_iff (n : PathNode T) (t : Str) (ts : List Str) :
    iterNodes n (t :: ts) = [] ↔ stepNode n t = none := by
  cases h : stepNode n t with
  | none => simp [iterNodes, h]
  | some c => simp [iterNodes, h]

/-- Claim C4 counterexample: on a tree whose only route is `/a/b`,
dispatching `/a/b/c` does not return `None`; it returns the deepest
visited node `/a/b` together with its handler. -/
theorem claim4_counterexample :
    smallTree.dispatch ("/a/b/c".toList) = some (("/a/b".toList), some 1)
    ∧ smallTree.dispatch ("/a/b/c".toList) ≠ none := by
  constructor
  · decide
  · decide

/-- Claim C4 amended: on a tree whose only route is `/a/b`,
`dispatch "/a"` returns `Some` with inner handler `None`, and
`dispatch "/a/b/c"` returns `Some` of the deepest visited node
`("/a/b", Some handler)` rather than `None`. -/
theorem claim4_amended_thm :
    smallTree.dispatch ("/a".toList) = some (("/a".toList), none)
    ∧ smallTree.dispatch ("/a/b/c".toList) = some (("/a/b".toList), some 1) := by
  constructor
  · decide
  · decide

/-- Claim C1 counterexample: after `add("/a/b", 1)` and
`add("/a/c/b", 2)`, dispatching the registered pattern `/a/c/b` yields
`Some(("/a", None))` — the inner handler option is `None` and the
reported full path differs from the pattern. -/
theorem claim1_counterexample :
    staleTree.dispatch ("/a/c/b".toList) = some (("/a".toList), none)
    ∧ (staleTree.dispatch ("/a/c/b".toList)).map (fun o => o.2.isSome) = some false
    ∧ ("/a".toList : Str) ≠ trimTrailingSlashes ("/a/c/b".toList) := by
  refine ⟨by decide, by decide, by decide⟩

/-- Claim C6 evaluation at the failing input: in the tree built from
`add("/a/b", 1)` then `add("/a/c/b", 2)`, the node reached by the static
edges `a`, `b`, `c` has `full_path = "/a/c"` and `segment = "c"`, while
its parent has `full_path = "/a/b"`; the invariant
`full_path = parent.full_path ++ "/" ++ segment` fails. -/
theorem claim6_eval :
    (walkTokens staleTree.root [("a".toList), ("b".toList)]).map PathNode.path
      = some ("/a/b".toList)
    ∧ (walkTokens staleTree.root [("a".toList), ("b".toList), ("c".toList)]).map
        (fun n => (n.path, n.segment)) = some (("/a/c".toList), ("c".toList))
    ∧ ("/a/c".toList : Str) ≠ "/a/b".toList ++ '/' :: ("c".toList) := by
  refine ⟨by decide, by decide, by decide⟩

/-- Claim C5 counterexample: after `add("/a/:x", 1)`, the later call
`add("/a/:y", 2)` — a pattern that is not identical to `/a/:x` after
trailing-slash trimming — overwrites the handler stored at the terminal
node of `/a/:x` (the parameter child of `a`), which now holds `2`. -/
theorem claim5_counterexample :
    trimTrailingSlashes ("/a/:y".toList) ≠ trimTrailingSlashes ("/a/:x".toList)
    ∧ (walkTokens renameTree.root [("a".toList), (":x".toList)]).map
        (fun n => (n.path, n.handler)) = some (("/a/:x".toList), some 2) := by
  refine ⟨by decide, by decide⟩

/-- Claim C7 counterexample: `add` with the empty pattern — which does
not begin with `'/'` — succeeds (it trims to the empty string, whose
single empty token passes the check and updates the root handler). -/
theorem claim7_counterexample :
    ((RouteTree.empty_root : RouteTree Nat).add ([] : Str) 1).2 = none
    ∧ ([] : Str).head? ≠ some '/' := by
  refine ⟨by decide, by decide⟩

/-- Claim C8 counterexample: with the single route `/foo`, the node for
`foo` has no `""` static child (and no parameter child), yet
`dispatch("/foo/")` and `dispatch("/foo")` return the same result from
the same node: the unmatched trailing empty token is simply dropped by
the deepest-visited-node rule. -/
theorem claim8_counterexample :
    (walkTokens fooTree.root [("foo".toList)]).map
        (fun n => ((mapGet ([] : Str) n.next).isNone, n.params.isSome)) = some (true, false)
    ∧ fooTree.dispatch ("/foo/".toList) = fooTree.dispatch ("/foo".toList)
    ∧ fooTree.dispatch ("/foo/".toList) = some (("/foo".toList), some 1) := by
  refine ⟨by decide, by decide, by decide⟩

/-- Claim C3: for every tree and every request path whose remainder
after stripping leading slashes is non-empty, `dispatch` returns `None`
exactly when the first token matches neither a static child nor the
parameter child of the root (the traversal yields nothing); and whenever
the traversal yields a last (deepest) node, `dispatch` returns that
node's `(full_path, handler)`, even if tokens remain unconsumed. -/
theorem claim3_dispatch_last (r : RouteTree T) (p : Str)
    (hne : trimLeadingSlashes p ≠ []) :
    (r.dispatch p = none
      ↔ stepNode r.root ((splitSlash (trimLeadingSlashes p)).head!) = none)
    ∧ (∀ m, (iterNodes r.root (splitSlash (trimLeadingSlashes p))).getLast? = some m →
        r.dispatch p = some (m.path, m.handler)) := by
  unfold RouteTree.dispatch
  simp only [if_neg hne]
  constructor
  · cases htok : splitSlash (trimLeadingSlashes p) with
    | nil => exact absurd htok (splitSlash_ne_nil _)
    | cons t ts =>
      have h1 : (t :: ts).head! = t := rfl
      rw [h1, ← iterNodes_cons_eq_nil_iff r.root t ts, ← List.getLast?_eq_none_iff]
      cases hlast : (iterNodes r.root (t :: ts)).getLast? with
      | none => simp [hlast]
      | some m => simp [hlast]
  · intro m hm
    rw [hm]

/-! ### Node accessor lemmas -/

@[simp] theorem PathNode.path_mk {p s : Str} {nx} {pr} {h : Option T} :
    (PathNode.mk p s nx pr h).path = p := rfl

@[simp] theorem PathNode.segment_mk {p s : Str} {nx} {pr} {h : Option T} :
    (PathNode.mk p s nx pr h).segment = s := rfl

@[simp] theorem PathNode.next_mk {p s : Str} {nx} {pr} {h : Option T} :
    (PathNode.mk p s nx pr h).next = nx := rfl

@[simp] theorem PathNode.params_mk {p s : Str} {nx} {pr} {h : Option T} :
    (PathNode.mk p s nx pr h).params = pr := rfl

@[simp] theorem PathNode.handler_mk {p s : Str} {nx} {pr} {h : Option T} :
    (PathNode.mk p s nx pr h).handler = h := rfl

@[simp] theorem PathNode.setHandler_def (n : PathNode T) (h : Option T) :
    n.setHandler h = PathNode.mk n.path n.segment n.next n.params h := by
  cases n; rfl

@[simp] theorem PathNode.setNext_def (n : PathNode T) (nx) :
    n.setNext nx = PathNode.mk n.path n.segment nx n.params n.handler := by
  cases n; rfl

@[simp] theorem PathNode.setParams_def (n : PathNode T) (pr) :
    n.setParams pr = PathNode.mk n.path n.segment n.next pr n.handler := by
  cases n; rfl

theorem attachChild_path (par child : PathNode T) :
    (attachChild par child).path = par.path := by
  unfold attachChild
  by_cases h : child.segment = ['*'] <;> simp [h]

theorem attachChild_segment (par child : PathNode T) :
    (attachChild par child).segment = par.segment := by
  unfold attachChild
  by_cases h : child.segment = ['*'] <;> simp [h]

theorem attachChild_handler (par child : PathNode T) :
    (attachChild par child).handler = par.handler := by
  unfold attachChild
  by_cases h : child.segment = ['*'] <;> simp [h]

theorem wireChain_segment (cs : List (PathNode T)) (c : PathNode T) (h : T) :
    (wireChain c cs h).segment = c.segment := by
  cases cs with
  | nil => simp [wireChain]
  | cons c' cs' => simp [wireChain, attachChild_segment]

/-! ### Association list lemmas -/

theorem mapGet_insert_self {A : Type} (k : Str) (v : A) (l : List (Str × A)) :
    mapGet k (mapInsert k v l) = some v := by
  induction l with
  | nil => simp [mapInsert, mapGet]
  | cons kv rest ih =>
    obtain ⟨k', v'⟩ := kv
    by_cases h : k' = k
    · simp [mapInsert, h, mapGet]
    · simp [mapInsert, h, mapGet, ih]

theorem mapGet_insert_ne {A : Type} (k q : Str) (v : A) (l : List (Str × A))
    (h : q ≠ k) : mapGet q (mapInsert k v l) = mapGet q l := by
  have hkq : ¬ k = q := fun hk => h hk.symm
  induction l with
  | nil => simp [mapInsert, mapGet, hkq]
  | cons kv rest ih =>
    obtain ⟨k', v'⟩ := kv
    by_cases hk : k' = k
    · subst hk
      simp [mapInsert, mapGet, hkq]
    · simp [mapInsert, hk, mapGet, ih]

/-! ### The created chain -/

theorem addB_no_descend (ts : List Str) (n : PathNode T) (acc : Str)
    (c : PathNode T) (cs : List (PathNode T)) (h : T)
    (hfree : ∀ t ∈ ts, (isParam t = true → n.params = none)
      ∧ (isParam t = false → mapGet t n.next = none)) :
    addB n ts acc c cs h = attachChild n (wireChain c (cs ++ newNodes acc ts) h) := by
  induction ts generalizing acc cs with
  | nil => simp [addB, newNodes]
  | cons t ts' ih =>
    have ht := hfree t (List.mem_cons_self t ts')
    have hrest : ∀ u ∈ ts', (isParam u = true → n.params = none)
        ∧ (isParam u = false → mapGet u n.next = none) :=
      fun u hu => hfree u (List.mem_cons_of_mem _ hu)
    cases hp : isParam t with
    | true =>
      have hparams := ht.1 hp
      rw [show addB n (t :: ts') acc c cs h
          = addB n ts' (acc ++ '/' :: t) c
              (cs ++ [PathNode.new (acc ++ '/' :: t) ['*'] none]) h by
        simp only [addB, hp, hparams, if_true]]
      rw [ih _ _ hrest]
      simp [newNodes, segOf, hp, List.append_assoc]
    | false =>
      have hget := ht.2 hp
      rw [show addB n (t :: ts') acc c cs h
          = addB n ts' (acc ++ '/' :: t) c
              (cs ++ [PathNode.new (acc ++ '/' :: t) t none]) h by
        simp only [addB, hp, hget, if_false, Bool.false_eq_true]]
      rw [ih _ _ hrest]
      simp [newNodes, segOf, hp, List.append_assoc]

theorem chainOf_segment (ts : List Str) (acc t : Str) (h : T) :
    (chainOf acc t ts h).segment = segOf t := by
  cases ts with
  | nil => simp [chainOf]
  | cons t' ts' =>
    by_cases hp : isParam t' <;> simp [chainOf, hp]

theorem chainOf_path (ts : List Str) (acc t : Str) (h : T) :
    (chainOf acc t ts h).path = acc ++ '/' :: t := by
  cases ts with
  | nil => simp [chainOf]
  | cons t' ts' =>
    by_cases hp : isParam t' <;> simp [chainOf, hp]

theorem wireChain_newNodes (ts : List Str) (acc t : Str) (h : T)
    (hstar : ∀ u ∈ ts, isParam u = false → u ≠ ['*']) :
    wireChain (PathNode.new (acc ++ '/' :: t) (segOf t) none)
        (newNodes (acc ++ '/' :: t) ts) h = chainOf acc t ts h := by
  induction ts generalizing acc t with
  | nil => simp [newNodes, wireChain, PathNode.new, chainOf]
  | cons t' ts' ih =>
    have hstar' : ∀ u ∈ ts', isParam u = false → u ≠ ['*'] :=
      fun u hu => hstar u (List.mem_cons_of_mem _ hu)
    rw [show newNodes (acc ++ '/' :: t) (t' :: ts')
        = PathNode.new ((acc ++ '/' :: t) ++ '/' :: t') (segOf t') none
          :: newNodes ((acc ++ '/' :: t) ++ '/' :: t') ts' from rfl]
    rw [wireChain, ih (acc ++ '/' :: t) t' hstar']
    have hseg : (chainOf (acc ++ '/' :: t) t' ts' h).segment = segOf t' :=
      chainOf_segment _ _ _ _
    cases hp : isParam t' with
    | true =>
      have : (chainOf (acc ++ '/' :: t) t' ts' h).segment = ['*'] := by
        rw [hseg]; simp [segOf, hp]
      simp only [attachChild, if_pos this]
      simp [chainOf, hp, PathNode.new]
    | false =>
      have hne : (chainOf (acc ++ '/' :: t) t' ts' h).segment ≠ ['*'] := by
        rw [hseg]
        simp only [segOf, hp]
        simp only [Bool.false_eq_true, if_false]
        exact hstar t' (List.mem_cons_self t' ts') hp
      simp only [attachChild, if_neg hne]
      rw [hseg]
      simp [chainOf, hp, PathNode.new, segOf, mapInsert]

theorem addA_childless (n : PathNode T) (t : Str) (ts : List Str) (acc : Str)
    (h : T) (hn : n.next = []) (hp : n.params = none)
    (hstar : ∀ u ∈ ts, isParam u = false → u ≠ ['*']) :
    addA n (t :: ts) acc h = attachChild n (chainOf acc t ts h) := by
  have hfree : ∀ u ∈ ts, (isParam u = true → n.params = none)
      ∧ (isParam u = false → mapGet u n.next = none) := by
    intro u _
    exact ⟨fun _ => hp, fun _ => by rw [hn]; rfl⟩
  cases hpt : isParam t with
  | true =>
    rw [show addA n (t :: ts) acc h
        = addB n ts (acc ++ '/' :: t) (PathNode.new (acc ++ '/' :: t) ['*'] none) [] h by
      simp only [addA, hpt, hp, if_true]]
    rw [addB_no_descend ts n _ _ _ _ hfree]
    rw [show (PathNode.new (acc ++ '/' :: t) ['*'] none : PathNode T)
        = PathNode.new (acc ++ '/' :: t) (segOf t) none by simp [segOf, hpt]]
    rw [List.nil_append, wireChain_newNodes ts acc t h hstar]
  | false =>
    have hget : mapGet t n.next = none := by rw [hn]; rfl
    rw [show addA n (t :: ts) acc h
        = addB n ts (acc ++ '/' :: t) (PathNode.new (acc ++ '/' :: t) t none) [] h by
      simp only [addA, hpt, hget, if_false, Bool.false_eq_true]]
    rw [addB_no_descend ts n _ _ _ _ hfree]
    rw [show (PathNode.new (acc ++ '/' :: t) t none : PathNode T)
        = PathNode.new (acc ++ '/' :: t) (segOf t) none by simp [segOf, hpt]]
    rw [List.nil_append, wireChain_newNodes ts acc t h hstar]

theorem walkTokens_chainOf (ts : List Str) (acc t : Str) (h : T) :
    ∃ m, walkTokens (chainOf acc t ts h) ts = some m
      ∧ m.path = acc ++ '/' :: t ++ patString ts ∧ m.handler = some h := by
  induction ts generalizing acc t with
  | nil =>
    refine ⟨chainOf acc t [] h, rfl, ?_, ?_⟩
    · simp [chainOf, patString]
    · simp [chainOf]
  | cons t' ts' ih =>
    obtain ⟨m, hm, hpath, hhandler⟩ := ih (acc ++ '/' :: t) t'
    refine ⟨m, ?_, ?_, hhandler⟩
    · cases hp : isParam t' with
      | true => simp [chainOf, hp, walkTokens, hm]
      | false => simp [chainOf, hp, walkTokens, mapGet, hm]
    · rw [hpath]
      simp [patString]

theorem chainOf_step (ts' : List Str) (t' acc t : Str) (h : T) :
    stepNode (chainOf acc t (t' :: ts') h) t'
      = some (chainOf (acc ++ '/' :: t) t' ts' h) := by
  cases hp : isParam t' with
  | true => simp [chainOf, hp, stepNode, mapGet]
  | false => simp [chainOf, hp, stepNode, mapGet]

theorem chain_iter_getLast (ts : List Str) (acc t : Str) (h : T) :
    ∃ m, ((chainOf acc t ts h) :: iterNodes (chainOf acc t ts h) ts).getLast? = some m
      ∧ m.path = acc ++ '/' :: t ++ patString ts ∧ m.handler = some h := by
  induction ts generalizing acc t with
  | nil =>
    refine ⟨chainOf acc t [] h, by simp [iterNodes], ?_, ?_⟩
    · simp [chainOf, patString]
    · simp [chainOf]
  | cons t' ts' ih =>
    obtain ⟨m, hm, hpath, hhandler⟩ := ih (acc ++ '/' :: t) t'
    refine ⟨m, ?_, ?_, hhandler⟩
    · rw [show iterNodes (chainOf acc t (t' :: ts') h) (t' :: ts')
          = chainOf (acc ++ '/' :: t) t' ts' h
            :: iterNodes (chainOf (acc ++ '/' :: t) t' ts' h) ts' by
        simp [iterNodes, chainOf_step]]
      rw [List.getLast?_cons_cons]
      exact hm
    · rw [hpath]
      simp [patString]

/-! ### Pattern-string bridging lemmas -/

theorem trimTrailing_eq_self (s : Str) (h : s.getLast? ≠ some '/') :
    trimTrailingSlashes s = s := by
  induction s with
  | nil => rfl
  | cons c cs ih =>
    cases cs with
    | nil =>
      have hc : c ≠ '/' := by
        intro hc
        exact h (by simp [hc])
      simp [trimTrailingSlashes, hc]
    | cons d ds =>
      have h2 : (d :: ds).getLast? ≠ some '/' :=
        fun hx => h (List.getLast?_cons_cons.trans hx)
      have ihr := ih h2
      rw [show trimTrailingSlashes (c :: d :: ds)
          = (match trimTrailingSlashes (d :: ds) with
            | [] => if c = '/' then [] else [c]
            | r => c :: r) from rfl]
      rw [ihr]

theorem patString_getLast_ne (ts : List Str)
    (hwf : ∀ u ∈ ts, u ≠ [] ∧ '/' ∉ u) :
    ts ≠ [] → (patString ts).getLast? ≠ some '/' := by
  induction ts with
  | nil => intro h; exact absurd rfl h
  | cons t rest ih =>
    intro _
    obtain ⟨hne, hfree⟩ := hwf t (List.mem_cons_self t rest)
    have hwr : ∀ u ∈ rest, u ≠ [] ∧ '/' ∉ u :=
      fun u hu => hwf u (List.mem_cons_of_mem _ hu)
    cases rest with
    | nil =>
      rw [show patString [t] = '/' :: (t ++ []) from rfl]
      rw [List.append_nil]
      rw [show ('/' :: t : Str) = ['/'] ++ t from rfl]
      rw [List.getLast?_append_of_ne_nil _ hne]
      intro hlast
      exact hfree (List.mem_of_mem_getLast? hlast)
    | cons t₂ rest₂ =>
      have hp2 : patString (t₂ :: rest₂) ≠ [] := by simp [patString]
      rw [show patString (t :: t₂ :: rest₂)
          = ('/' :: t) ++ patString (t₂ :: rest₂) by simp [patString]]
      rw [List.getLast?_append_of_ne_nil _ hp2]
      exact ih hwr (by simp)

theorem splitSlash_patString (ts : List Str) (hwf : ∀ u ∈ ts, '/' ∉ u) :
    ts ≠ [] → splitSlash (patString ts) = [] :: ts := by
  induction ts with
  | nil => intro h; exact absurd rfl h
  | cons t rest ih =>
    intro _
    have hfree := hwf t (List.mem_cons_self t rest)
    have hwr : ∀ u ∈ rest, '/' ∉ u :=
      fun u hu => hwf u (List.mem_cons_of_mem _ hu)
    cases rest with
    | nil =>
      rw [show patString [t] = '/' :: (t ++ []) from rfl, List.append_nil]
      rw [splitSlash_slash_cons, splitSlash_no_slash t hfree]
    | cons t₂ rest₂ =>
      have ihr := ih hwr (by simp)
      have hps : patString (t₂ :: rest₂) = '/' :: (t₂ ++ patString rest₂) := by
        simp [patString]
      have hsplit2 : splitSlash (t₂ ++ patString rest₂) = t₂ :: rest₂ := by
        rw [hps, splitSlash_slash_cons] at ihr
        exact (List.cons_eq_cons.mp ihr).2
      rw [show patString (t :: t₂ :: rest₂)
          = '/' :: (t ++ ('/' :: (t₂ ++ patString rest₂))) by simp [patString]]
      rw [splitSlash_slash_cons, splitSlash_append_token t _ hfree, hsplit2]

theorem RouteTree.add_def (r : RouteTree T) (route : Str) (h : T) :
    r.add route h =
      (if (splitSlash (trimTrailingSlashes route)).head! ≠ [] then
        (r, some ("Paths must start with a slash (/)".toList))
      else if (splitSlash (trimTrailingSlashes route)).length = 1 then
        ({ root := r.root.setHandler (some h) }, none)
      else
        ({ root := addA r.root (splitSlash (trimTrailingSlashes route)).tail [] h }, none)) :=
  rfl

theorem RouteTree.dispatch_def (r : RouteTree T) (request_path : Str) :
    r.dispatch request_path =
      (if trimLeadingSlashes request_path = [] then
        some (r.root.path, r.root.handler)
      else
        match (iterNodes r.root (splitSlash (trimLeadingSlashes request_path))).getLast? with
        | some found => some (found.path, found.handler)
        | none => none) :=
  rfl

theorem add_patString (r : RouteTree T) (ts : List Str) (hv : T)
    (hne : ts ≠ []) (hwf : ∀ u ∈ ts, u ≠ [] ∧ '/' ∉ u) :
    r.add (patString ts) hv = ({ root := addA r.root ts [] hv }, none) := by
  have htrim := trimTrailing_eq_self (patString ts) (patString_getLast_ne ts hwf hne)
  have hsplit := splitSlash_patString ts (fun u hu => (hwf u hu).2) hne
  rw [RouteTree.add_def, htrim, hsplit]
  obtain ⟨t, rest, rfl⟩ := List.exists_cons_of_ne_nil hne
  simp [List.head!]

theorem trimLeading_patString (t : Str) (rest : List Str) (hne : t ≠ [])
    (hfree : '/' ∉ t) :
    trimLeadingSlashes (patString (t :: rest)) = t ++ patString rest := by
  obtain ⟨c, t', rfl⟩ := List.exists_cons_of_ne_nil hne
  have hc : ¬ c = '/' := fun h => hfree (by simp [h])
  simp [patString, trimLeadingSlashes, List.dropWhile_cons, hc]

theorem splitSlash_token_patString (t : Str) (rest : List Str)
    (hfree : '/' ∉ t) (hwr : ∀ u ∈ rest, '/' ∉ u) :
    splitSlash (t ++ patString rest) = t :: rest := by
  cases rest with
  | nil =>
    rw [show patString [] = [] from rfl, List.append_nil, splitSlash_no_slash t hfree]
  | cons t₂ rest₂ =>
    have ihr := splitSlash_patString (t₂ :: rest₂) hwr (by simp)
    have hps : patString (t₂ :: rest₂) = '/' :: (t₂ ++ patString rest₂) := by
      simp [patString]
    rw [hps] at ihr ⊢
    rw [splitSlash_append_token t _ hfree]
    rw [splitSlash_slash_cons] at ihr
    rw [(List.cons_eq_cons.mp ihr).2]

theorem dispatch_patString (r : RouteTree T) (ts : List Str) (hne : ts ≠ [])
    (hwf : ∀ u ∈ ts, u ≠ [] ∧ '/' ∉ u) :
    r.dispatch (patString ts) =
      match (iterNodes r.root ts).getLast? with
      | some m => some (m.path, m.handler)
      | none => none := by
  obtain ⟨t, rest, rfl⟩ := List.exists_cons_of_ne_nil hne
  obtain ⟨ht, hfree⟩ := hwf t (List.mem_cons_self t rest)
  have hwr : ∀ u ∈ rest, '/' ∉ u :=
    fun u hu => (hwf u (List.mem_cons_of_mem _ hu)).2
  have h1 := trimLeading_patString t rest ht hfree
  have h2 : t ++ patString rest ≠ [] := by
    obtain ⟨c, t', rfl⟩ := List.exists_cons_of_ne_nil ht
    simp
  rw [RouteTree.dispatch_def, h1, if_neg h2, splitSlash_token_patString t rest hfree hwr]

theorem stepNode_attach_chain (n : PathNode T) (t : Str) (rest : List Str)
    (hv : T) (hn : n.next = []) (_hp : n.params = none)
    (hstat : isParam t = false → t ≠ ['*']) (acc : Str) :
    stepNode (attachChild n (chainOf acc t rest hv)) t
      = some (chainOf acc t rest hv) := by
  have hseg := chainOf_segment rest acc t hv
  cases hpt : isParam t with
  | true =>
    have hstarred : (chainOf acc t rest hv).segment = ['*'] := by
      rw [hseg]; simp [segOf, hpt]
    simp only [attachChild, if_pos hstarred]
    simp [stepNode, hn, mapGet]
  | false =>
    have hnstar : (chainOf acc t rest hv).segment ≠ ['*'] := by
      rw [hseg]
      simp only [segOf, hpt, Bool.false_eq_true, if_false]
      exact hstat hpt
    simp only [attachChild, if_neg hnstar]
    rw [hseg]
    simp [stepNode, hn, segOf, hpt, mapInsert, mapGet]

/-- Claim C1 amended: for a single `add(p, h)` on an empty tree, where
`p` is `'/'` followed by `'/'`-separated non-empty segments (no static
segment spelled `"*"`), `add` succeeds and `dispatch(p)` returns `Some`
whose inner handler option is `Some h`, with `full_path = p`.  (With
more than one `add` the original claim fails: see the counterexample.) -/
theorem claim1_amended (ts : List Str) (hv : T) (hne : ts ≠ [])
    (hwf : ∀ u ∈ ts, u ≠ [] ∧ '/' ∉ u ∧ (isParam u = false → u ≠ ['*'])) :
    (RouteTree.empty_root.add (patString ts) hv).2 = none
    ∧ ((RouteTree.empty_root.add (patString ts) hv).1).dispatch (patString ts)
        = some (patString ts, some hv) := by
  have hwf2 : ∀ u ∈ ts, u ≠ [] ∧ '/' ∉ u :=
    fun u hu => ⟨(hwf u hu).1, (hwf u hu).2.1⟩
  have hadd := add_patString (RouteTree.empty_root : RouteTree T) ts hv hne hwf2
  obtain ⟨t, rest, rfl⟩ := List.exists_cons_of_ne_nil hne
  refine ⟨by rw [hadd], ?_⟩
  rw [hadd]
  have hstar : ∀ u ∈ rest, isParam u = false → u ≠ ['*'] :=
    fun u hu => (hwf u (List.mem_cons_of_mem _ hu)).2.2
  have hroot : addA (PathNode.new ['/'] [] none) (t :: rest) [] hv
      = attachChild (PathNode.new ['/'] [] none) (chainOf [] t rest hv) :=
    addA_childless _ t rest [] hv rfl rfl hstar
  rw [show ({ root := addA (RouteTree.empty_root : RouteTree T).root (t :: rest) [] hv }
        : RouteTree T)
      = { root := attachChild (PathNode.new ['/'] [] none) (chainOf [] t rest hv) } by
    rw [show (RouteTree.empty_root : RouteTree T).root = PathNode.new ['/'] [] none from rfl,
      hroot]]
  rw [dispatch_patString _ (t :: rest) (by simp) hwf2]
  have hstep := stepNode_attach_chain (PathNode.new ['/'] [] none) t rest hv rfl rfl
    ((hwf t (List.mem_cons_self t rest)).2.2) []
  obtain ⟨m, hm, hpath, hhandler⟩ := chain_iter_getLast rest [] t hv
  rw [show iterNodes (attachChild (PathNode.new ['/'] [] none) (chainOf [] t rest hv))
        (t :: rest)
      = chainOf [] t rest hv :: iterNodes (chainOf [] t rest hv) rest by
    simp [iterNodes, hstep]]
  rw [hm]
  simp only [Option.some.injEq]
  rw [hpath, hhandler]
  simp [patString]

theorem claim1_amended_witness :
    ((["foo".toList, "ab".toList] : List Str) ≠ []
      ∧ ∀ u ∈ ([("foo".toList), ("ab".toList)] : List Str),
          u ≠ [] ∧ '/' ∉ u ∧ (isParam u = false → u ≠ ['*']))
    ∧ ((RouteTree.empty_root.add (patString [("foo".toList), ("ab".toList)]) (1 : Nat)).2
        = none
      ∧ ((RouteTree.empty_root.add (patString [("foo".toList), ("ab".toList)])
            (1 : Nat)).1).dispatch (patString [("foo".toList), ("ab".toList)])
          = some (patString [("foo".toList), ("ab".toList)], some 1)) :=
  ⟨⟨by decide, by decide⟩,
    claim1_amended [("foo".toList), ("ab".toList)] 1 (by decide) (by decide)⟩

theorem claim3_witness :
    (trimLeadingSlashes ("/a/x".toList) ≠ [])
    ∧ ((smallTree.dispatch ("/a/x".toList) = none
        ↔ stepNode smallTree.root
            ((splitSlash (trimLeadingSlashes ("/a/x".toList))).head!) = none)
      ∧ (∀ m, (iterNodes smallTree.root
            (splitSlash (trimLeadingSlashes ("/a/x".toList)))).getLast? = some m →
          smallTree.dispatch ("/a/x".toList) = some (m.path, m.handler))) :=
  ⟨by decide, claim3_dispatch_last smallTree ("/a/x".toList) (by decide)⟩

theorem splitSlash_head_empty (s : Str) :
    (splitSlash s).head! = [] ↔ (s = [] ∨ s.head? = some '/') := by
  cases s with
  | nil => simp [splitSlash]
  | cons c r =>
    by_cases hc : c = '/'
    · subst hc
      simp [splitSlash]
    · rw [show splitSlash (c :: r)
          = (match splitSlash r with
            | [] => [[c]]
            | t :: ts => (c :: t) :: ts) by simp [splitSlash, hc]]
      cases hr : splitSlash r with
      | nil => simp [hc]
      | cons t ts => simp [hc]

theorem trim_head_cond (s : Str) :
    (trimTrailingSlashes s = [] ∨ (trimTrailingSlashes s).head? = some '/')
      ↔ (s = [] ∨ s.head? = some '/') := by
  cases s with
  | nil => simp [trimTrailingSlashes]
  | cons c cs =>
    rw [show trimTrailingSlashes (c :: cs)
        = (match trimTrailingSlashes cs with
          | [] => if c = '/' then [] else [c]
          | r => c :: r) from rfl]
    cases htr : trimTrailingSlashes cs with
    | nil =>
      by_cases hc : c = '/'
      · subst hc; simp
      · simp [hc]
    | cons d ds => simp

/-- Claim C7 amended: `add` returns an error exactly when the pattern is
non-empty and does not begin with `'/'`.  (The empty pattern, which does
not begin with `'/'`, nevertheless succeeds and sets the root handler;
for every pattern beginning with `'/'`, `add` returns `Ok`.) -/
theorem claim7_amended (r : RouteTree T) (s : Str) (h : T) :
    ((r.add s h).2).isSome = true ↔ (s ≠ [] ∧ s.head? ≠ some '/') := by
  have key : (splitSlash (trimTrailingSlashes s)).head! = []
      ↔ (s = [] ∨ s.head? = some '/') :=
    (splitSlash_head_empty _).trans (trim_head_cond s)
  rw [RouteTree.add_def]
  by_cases hcond : (splitSlash (trimTrailingSlashes s)).head! = []
  · rw [if_neg (fun hne => hne hcond)]
    have hor := key.mp hcond
    by_cases hlen : (splitSlash (trimTrailingSlashes s)).length = 1
    · rw [if_pos hlen]
      simp only [Option.isSome_none, Bool.false_eq_true, false_iff]
      intro hand
      rcases hor with h1 | h2
      · exact hand.1 h1
      · exact hand.2 h2
    · rw [if_neg hlen]
      simp only [Option.isSome_none, Bool.false_eq_true, false_iff]
      intro hand
      rcases hor with h1 | h2
      · exact hand.1 h1
      · exact hand.2 h2
  · rw [if_pos hcond]
    simp only [Option.isSome_some, true_iff]
    have hnor := (not_iff_not.mpr key).mp hcond
    push_neg at hnor
    exact hnor

/-- Claim C8 amended: the trailing `'/'` of a request path yields an
ordinary empty token that `dispatch` does not strip, but an unmatched
token does not change the result: whenever the node matched by `/t` has
neither a `""` static child nor a parameter child, `dispatch("/t/")`
and `dispatch("/t")` return the same result, from the same node.  The
results differ only when such a child exists (then `/t/` descends into
it, as in the `/foo/:id` example). -/
theorem claim8_amended (r : RouteTree T) (t : Str) (n : PathNode T)
    (hne : t ≠ []) (hfree : '/' ∉ t)
    (hstep : stepNode r.root t = some n)
    (hempty : mapGet ([] : Str) n.next = none) (hparams : n.params = none) :
    r.dispatch ('/' :: t ++ ['/']) = r.dispatch ('/' :: t) := by
  obtain ⟨c, t', rfl⟩ := List.exists_cons_of_ne_nil hne
  have hc : ¬ c = '/' := fun h => hfree (by simp [h])
  have trimR : trimLeadingSlashes ('/' :: c :: t') = c :: t' := by
    simp [trimLeadingSlashes, List.dropWhile_cons, hc]
  have trimL : trimLeadingSlashes ('/' :: (c :: t') ++ ['/']) = (c :: t') ++ ['/'] := by
    simp [trimLeadingSlashes, List.dropWhile_cons, hc]
  have hsplitR : splitSlash (c :: t') = [c :: t'] := splitSlash_no_slash _ hfree
  have hsplitL : splitSlash ((c :: t') ++ ['/']) = [c :: t', []] := by
    rw [show (['/'] : Str) = '/' :: [] from rfl, splitSlash_append_token _ _ hfree]
    rfl
  rw [RouteTree.dispatch_def, RouteTree.dispatch_def, trimR, trimL, hsplitR, hsplitL]
  rw [if_neg (by simp), if_neg (by simp)]
  have hstop : stepNode n ([] : Str) = none := by
    simp [stepNode, hempty, hparams]
  simp [iterNodes, hstep, hstop]

theorem claim8_amended_witness :
    (("foo".toList : Str) ≠ [] ∧ '/' ∉ ("foo".toList)
      ∧ stepNode fooTree.root ("foo".toList)
          = some (PathNode.mk ("/foo".toList) ("foo".toList) [] none (some (1 : Nat)))
      ∧ mapGet ([] : Str)
          (PathNode.mk ("/foo".toList) ("foo".toList) [] none (some (1 : Nat))).next = none
      ∧ (PathNode.mk ("/foo".toList) ("foo".toList) [] none (some (1 : Nat))).params = none)
    ∧ fooTree.dispatch ('/' :: "foo".toList ++ ['/'])
        = fooTree.dispatch ('/' :: "foo".toList) :=
  ⟨⟨by decide, by decide, by rfl, by rfl, by rfl⟩,
    claim8_amended fooTree ("foo".toList)
      (PathNode.mk ("/foo".toList) ("foo".toList) [] none (some 1))
      (by decide) (by decide) (by rfl) (by rfl) (by rfl)⟩

theorem paramIndices_cons (r : Str) (rs : List Str) :
    paramIndices (r :: rs)
      = (if isParam r then [0] else []) ++ (paramIndices rs).map Nat.succ := by
  unfold paramIndices
  rw [show (r :: rs).length = rs.length + 1 from rfl, List.range_succ_eq_map]
  rw [List.filter_cons]
  rw [List.filter_map]
  have hcomp : ((fun i => isParam ((r :: rs).getD i [])) ∘ Nat.succ)
      = fun i => isParam (rs.getD i []) := by
    funext i
    rfl
  rw [hcomp]
  by_cases hr : isParam r
  · simp [hr]
  · simp [hr]

theorem parseList_eq_spec (rs : List Str) :
    ∀ ps : List Str, (∀ i ∈ paramIndices rs, i < ps.length) →
      parseList rs ps
        = (paramIndices rs).map (fun i => (rs.getD i [], ps.getD i [])) := by
  induction rs with
  | nil =>
    intro ps _
    simp [parseList, paramIndices]
  | cons r rs' ih =>
    intro ps hidx
    cases ps with
    | nil =>
      have hempty : paramIndices (r :: rs') = [] := by
        rw [List.eq_nil_iff_forall_not_mem]
        intro i hi
        exact absurd (hidx i hi) (by simp)
      simp [parseList, hempty]
    | cons q ps' =>
      have hmem : ∀ i ∈ paramIndices rs', i + 1 ∈ paramIndices (r :: rs') := by
        intro i hi
        rw [paramIndices_cons]
        exact List.mem_append_right _ (List.mem_map.mpr ⟨i, hi, rfl⟩)
      have hidx' : ∀ i ∈ paramIndices rs', i < ps'.length := by
        intro i hi
        have := hidx (i + 1) (hmem i hi)
        simpa using this
      have ihr := ih ps' hidx'
      rw [paramIndices_cons]
      rw [show parseList (r :: rs') (q :: ps')
          = (if isParam r then [(r, q)] else []) ++ parseList rs' ps' by
        by_cases hr : isParam r <;> simp [parseList, List.filter_cons, hr]]
      rw [List.map_append, List.map_map]
      have hF : ((fun i => ((r :: rs').getD i [], (q :: ps').getD i [])) ∘ Nat.succ)
          = fun i => (rs'.getD i [], ps'.getD i []) := by
        funext i
        rfl
      rw [hF, ← ihr]
      by_cases hr : isParam r <;> simp [hr]

/-- Claim C9: for a route pattern whose parameter segments sit at
`'/'`-split indices `i₁ < … < i_k`, and a path whose `'/'`-split covers
every such index, `parse` yields exactly the `k` pairs in index order;
each pair's name is the pattern segment including its leading `':'` and
each pair's value is the path segment at the same index, unmodified. -/
theorem claim9_parse (route p : Str)
    (hidx : ∀ i ∈ paramIndices (splitSlash route), i < (splitSlash p).length) :
    parse route p = (paramIndices (splitSlash route)).map
      (fun i => ((splitSlash route).getD i [], (splitSlash p).getD i [])) :=
  parseList_eq_spec (splitSlash route) (splitSlash p) hidx

theorem claim9_parse_witness :
    (∀ i ∈ paramIndices (splitSlash ("/a/:x/b/:y".toList)),
      i < (splitSlash ("/a/1/b/2".toList)).length)
    ∧ parse ("/a/:x/b/:y".toList) ("/a/1/b/2".toList)
        = (paramIndices (splitSlash ("/a/:x/b/:y".toList))).map
            (fun i => ((splitSlash ("/a/:x/b/:y".toList)).getD i [],
              (splitSlash ("/a/1/b/2".toList)).getD i [])) :=
  ⟨by decide, claim9_parse ("/a/:x/b/:y".toList) ("/a/1/b/2".toList) (by decide)⟩

theorem assocGet_insert_self {M A : Type} [DecidableEq M] (m : M) (v : A)
    (l : List (M × A)) : assocGet m (assocInsert m v l) = some v := by
  induction l with
  | nil => simp [assocInsert, assocGet]
  | cons kv rest ih =>
    obtain ⟨m', v'⟩ := kv
    by_cases hm : m' = m
    · simp [assocInsert, hm, assocGet]
    · simp [assocInsert, hm, assocGet, ih]

theorem routerAdd_def {M : Type} [DecidableEq M] (routes : Router M T) (m : M)
    (route : Str) (h : T) :
    Router.add routes m route h
      = (assocInsert m (((assocGet m routes).getD RouteTree.empty_root).add route h).1
          routes,
        (((assocGet m routes).getD RouteTree.empty_root).add route h).2) :=
  rfl

theorem routerDispatch_def {M : Type} [DecidableEq M] (routes : Router M T)
    (m : M) (p : Str) :
    Router.dispatch routes m p
      = match assocGet m routes with
        | some tree => (tree.dispatch p).map (fun found => found.2)
        | none => none :=
  rfl

/-- Claim C10: when `Router::add` fails because the pattern is
malformed, the per-method tree has already been registered by
`entry(..).or_insert_with(..)`: afterwards `Router::dispatch(m, "/")`
returns `Some` of the fresh empty root's handler option (`None`),
whereas before the failed `add` it returned `None`.  (Rust's by-value
`add` drops the router on `Err`; the theorem is about the state as
mutated before the failure, which the model returns alongside the
error.) -/
theorem claim10_router {M : Type} [DecidableEq M] (routes : Router M T) (m : M)
    (route : Str) (h : T)
    (habs : assocGet m routes = none)
    (hbad : ((RouteTree.empty_root : RouteTree T).add route h).2.isSome = true) :
    Router.dispatch routes m ['/'] = none
    ∧ ((Router.add routes m route h).2).isSome = true
    ∧ Router.dispatch (Router.add routes m route h).1 m ['/'] = some none := by
  have hc : (splitSlash (trimTrailingSlashes route)).head! ≠ [] := by
    intro hceq
    rw [RouteTree.add_def, if_neg (fun hne => hne hceq)] at hbad
    by_cases hlen : (splitSlash (trimTrailingSlashes route)).length = 1
    · rw [if_pos hlen] at hbad
      simp at hbad
    · rw [if_neg hlen] at hbad
      simp at hbad
  have hres : (RouteTree.empty_root : RouteTree T).add route h
      = (RouteTree.empty_root, some ("Paths must start with a slash (/)".toList)) := by
    rw [RouteTree.add_def, if_pos hc]
  refine ⟨?_, ?_, ?_⟩
  · rw [routerDispatch_def, habs]
  · rw [routerAdd_def, habs]
    simp only [Option.getD_none]
    rw [hres]
    rfl
  · rw [routerAdd_def, habs]
    simp only [Option.getD_none]
    rw [hres]
    rw [routerDispatch_def, assocGet_insert_self]
    rfl

theorem claim10_router_witness :
    (assocGet 0 ([] : Router Nat Nat) = none
      ∧ ((RouteTree.empty_root : RouteTree Nat).add ("a".toList) 1).2.isSome = true)
    ∧ (Router.dispatch ([] : Router Nat Nat) 0 ['/'] = none
      ∧ ((Router.add ([] : Router Nat Nat) 0 ("a".toList) 1).2).isSome = true
      ∧ Router.dispatch (Router.add ([] : Router Nat Nat) 0 ("a".toList) 1).1 0 ['/']
          = some none) :=
  ⟨⟨by rfl, by decide⟩, claim10_router ([] : Router Nat Nat) 0 ("a".toList) 1 (by rfl) (by decide)⟩

theorem addA_no_match (n : PathNode T) (t : Str) (ts : List Str) (acc : Str)
    (h : T)
    (hfirst : (isParam t = true → n.params = none)
      ∧ (isParam t = false → mapGet t n.next = none))
    (hfree : ∀ u ∈ ts, (isParam u = true → n.params = none)
      ∧ (isParam u = false → mapGet u n.next = none))
    (hstar : ∀ u ∈ ts, isParam u = false → u ≠ ['*']) :
    addA n (t :: ts) acc h = attachChild n (chainOf acc t ts h) := by
  cases hpt : isParam t with
  | true =>
    rw [show addA n (t :: ts) acc h
        = addB n ts (acc ++ '/' :: t) (PathNode.new (acc ++ '/' :: t) ['*'] none) [] h by
      simp only [addA, hpt, hfirst.1 hpt, if_true]]
    rw [addB_no_descend ts n _ _ _ _ hfree]
    rw [show (PathNode.new (acc ++ '/' :: t) ['*'] none : PathNode T)
        = PathNode.new (acc ++ '/' :: t) (segOf t) none by simp [segOf, hpt]]
    rw [List.nil_append, wireChain_newNodes ts acc t h hstar]
  | false =>
    rw [show addA n (t :: ts) acc h
        = addB n ts (acc ++ '/' :: t) (PathNode.new (acc ++ '/' :: t) t none) [] h by
      simp only [addA, hpt, hfirst.2 hpt, if_false, Bool.false_eq_true]]
    rw [addB_no_descend ts n _ _ _ _ hfree]
    rw [show (PathNode.new (acc ++ '/' :: t) t none : PathNode T)
        = PathNode.new (acc ++ '/' :: t) (segOf t) none by simp [segOf, hpt]]
    rw [List.nil_append, wireChain_newNodes ts acc t h hstar]

theorem walk_edge (n : PathNode T) (t : Str) (ts : List Str) (c : PathNode T)
    (hc : (if isParam t then n.params else mapGet t n.next) = some c) :
    walkTokens n (t :: ts) = walkTokens c ts := by
  rw [show walkTokens n (t :: ts)
      = (match (if isParam t then n.params else mapGet t n.next) with
        | some c => walkTokens c ts
        | none => none) from rfl, hc]

theorem RouteTree.root_mk (n : PathNode T) : ({ root := n } : RouteTree T).root = n := rfl

/-- Claim C5 amended: after `add(p1, h1)` on an empty tree, a later
`add(p2, h2)` leaves the handler at `p1`'s terminal node unchanged
provided no segment of `p2` can match `p1`'s first edge (no static
segment of `p2` equals `p1`'s first segment when that segment is
static, and `p2` has no parameter segment when `p1` starts with a
parameter).  Without this proviso the original claim is false: a later
pattern that renames a parameter (`/a/:x` then `/a/:y`) descends to the
same node and overwrites the handler, and a pattern that diverges from
and then re-matches existing segments can even replace existing nodes
wholesale. -/
theorem claim5_amended (p0 : Str) (ps' : List Str) (qs : List Str) (h1 h2 : T)
    (hwfP : ∀ u ∈ p0 :: ps', u ≠ [] ∧ '/' ∉ u ∧ (isParam u = false → u ≠ ['*']))
    (hwfQ : ∀ u ∈ qs, u ≠ [] ∧ '/' ∉ u ∧ (isParam u = false → u ≠ ['*']))
    (hqne : qs ≠ [])
    (hmiss : ∀ q ∈ qs, (isParam p0 = true → isParam q = false)
      ∧ (isParam p0 = false → q ≠ p0)) :
    (walkTokens ((((RouteTree.empty_root : RouteTree T).add (patString (p0 :: ps')) h1).1.add
        (patString qs) h2).1.root) (p0 :: ps')).map PathNode.handler
      = some (some h1) := by
  have hwfP2 : ∀ u ∈ p0 :: ps', u ≠ [] ∧ '/' ∉ u :=
    fun u hu => ⟨(hwfP u hu).1, (hwfP u hu).2.1⟩
  have hwfQ2 : ∀ u ∈ qs, u ≠ [] ∧ '/' ∉ u :=
    fun u hu => ⟨(hwfQ u hu).1, (hwfQ u hu).2.1⟩
  have hstarP : ∀ u ∈ ps', isParam u = false → u ≠ ['*'] :=
    fun u hu => (hwfP u (List.mem_cons_of_mem _ hu)).2.2
  rw [add_patString (RouteTree.empty_root : RouteTree T) (p0 :: ps') h1 (by simp) hwfP2]
  have hroot1 : addA (RouteTree.empty_root : RouteTree T).root (p0 :: ps') [] h1
      = attachChild (PathNode.new ['/'] [] none) (chainOf [] p0 ps' h1) :=
    addA_childless _ p0 ps' [] h1 rfl rfl hstarP
  rw [show ({ root := addA (RouteTree.empty_root : RouteTree T).root (p0 :: ps') [] h1 }
        : RouteTree T)
      = { root := attachChild (PathNode.new ['/'] [] none) (chainOf [] p0 ps' h1) } by
    rw [hroot1]]
  obtain ⟨q0, qs'', rfl⟩ := List.exists_cons_of_ne_nil hqne
  rw [add_patString ({ root := attachChild (PathNode.new ['/'] [] none) (chainOf [] p0 ps' h1) } : RouteTree T) (q0 :: qs'') h2 (by simp) hwfQ2]
  rw [RouteTree.root_mk, RouteTree.root_mk]
  have hstarQ : ∀ u ∈ qs'', isParam u = false → u ≠ ['*'] :=
    fun u hu => (hwfQ u (List.mem_cons_of_mem _ hu)).2.2
  obtain ⟨m, hm, hpath, hhandler⟩ := walkTokens_chainOf ps' [] p0 h1
  cases hp0 : isParam p0 with
  | true =>
    have hseg : (chainOf [] p0 ps' h1).segment = ['*'] := by
      rw [chainOf_segment]; simp [segOf, hp0]
    have hroot1eq : attachChild (PathNode.new ['/'] [] none) (chainOf [] p0 ps' h1)
        = PathNode.mk ['/'] [] [] (some (chainOf [] p0 ps' h1)) none := by
      rw [attachChild, if_pos hseg]
      simp [PathNode.new]
    have hq0 : isParam q0 = false := (hmiss q0 (List.mem_cons_self q0 qs'')).1 hp0
    have hfirst : (isParam q0 = true →
          (attachChild (PathNode.new ['/'] [] none) (chainOf [] p0 ps' h1)).params = none)
        ∧ (isParam q0 = false →
          mapGet q0 (attachChild (PathNode.new ['/'] [] none) (chainOf [] p0 ps' h1)).next
            = none) := by
      constructor
      · intro hq0'
        rw [hq0] at hq0'
        exact absurd hq0' (by simp)
      · intro _
        rw [hroot1eq]
        rfl
    have hfree : ∀ u ∈ qs'', (isParam u = true →
          (attachChild (PathNode.new ['/'] [] none) (chainOf [] p0 ps' h1)).params = none)
        ∧ (isParam u = false →
          mapGet u (attachChild (PathNode.new ['/'] [] none) (chainOf [] p0 ps' h1)).next
            = none) := by
      intro u hu
      constructor
      · intro hparam
        have := (hmiss u (List.mem_cons_of_mem _ hu)).1 hp0
        rw [this] at hparam
        exact absurd hparam (by simp)
      · intro _
        rw [hroot1eq]
        rfl
    rw [addA_no_match _ q0 qs'' [] h2 hfirst hfree hstarQ]
    have hseg2 : (chainOf [] q0 qs'' h2).segment = q0 := by
      rw [chainOf_segment]; simp [segOf, hq0]
    have hq0star : q0 ≠ ['*'] := (hwfQ q0 (List.mem_cons_self q0 qs'')).2.2 hq0
    have hedge : (if isParam p0 then
          (attachChild (attachChild (PathNode.new ['/'] [] none) (chainOf [] p0 ps' h1))
            (chainOf [] q0 qs'' h2)).params
        else mapGet p0 (attachChild (attachChild (PathNode.new ['/'] [] none)
            (chainOf [] p0 ps' h1)) (chainOf [] q0 qs'' h2)).next)
        = some (chainOf [] p0 ps' h1) := by
      rw [if_pos (by rw [hp0])]
      rw [show attachChild (attachChild (PathNode.new ['/'] [] none) (chainOf [] p0 ps' h1))
            (chainOf [] q0 qs'' h2)
          = (attachChild (PathNode.new ['/'] [] none) (chainOf [] p0 ps' h1)).setNext
              (mapInsert (chainOf [] q0 qs'' h2).segment (chainOf [] q0 qs'' h2)
                (attachChild (PathNode.new ['/'] [] none) (chainOf [] p0 ps' h1)).next) by
        rw [attachChild, if_neg (by rw [hseg2]; exact hq0star)]]
      rw [hroot1eq]
      rfl
    rw [walk_edge _ p0 ps' _ hedge, hm]
    simp [hhandler]
  | false =>
    have hseg : (chainOf [] p0 ps' h1).segment = p0 := by
      rw [chainOf_segment]; simp [segOf, hp0]
    have hp0star : p0 ≠ ['*'] := (hwfP p0 (List.mem_cons_self p0 ps')).2.2 hp0
    have hroot1eq : attachChild (PathNode.new ['/'] [] none) (chainOf [] p0 ps' h1)
        = PathNode.mk ['/'] [] [(p0, chainOf [] p0 ps' h1)] none none := by
      rw [attachChild, if_neg (by rw [hseg]; exact hp0star)]
      rw [hseg]
      simp [PathNode.new, mapInsert]
    have hfirst : (isParam q0 = true →
          (attachChild (PathNode.new ['/'] [] none) (chainOf [] p0 ps' h1)).params = none)
        ∧ (isParam q0 = false →
          mapGet q0 (attachChild (PathNode.new ['/'] [] none) (chainOf [] p0 ps' h1)).next
            = none) := by
      constructor
      · intro _
        rw [hroot1eq]
        rfl
      · intro hq0'
        have hne := (hmiss q0 (List.mem_cons_self q0 qs'')).2 hp0
        rw [hroot1eq]
        simp only [PathNode.next_mk, mapGet]
        rw [if_neg (fun hpq => hne (hpq.symm))]
    have hfree : ∀ u ∈ qs'', (isParam u = true →
          (attachChild (PathNode.new ['/'] [] none) (chainOf [] p0 ps' h1)).params = none)
        ∧ (isParam u = false →
          mapGet u (attachChild (PathNode.new ['/'] [] none) (chainOf [] p0 ps' h1)).next
            = none) := by
      intro u hu
      constructor
      · intro _
        rw [hroot1eq]
        rfl
      · intro _
        have hne := (hmiss u (List.mem_cons_of_mem _ hu)).2 hp0
        rw [hroot1eq]
        simp only [PathNode.next_mk, mapGet]
        rw [if_neg (fun hpq => hne (hpq.symm))]
    rw [addA_no_match _ q0 qs'' [] h2 hfirst hfree hstarQ]
    have hedge : (if isParam p0 then
          (attachChild (attachChild (PathNode.new ['/'] [] none) (chainOf [] p0 ps' h1))
            (chainOf [] q0 qs'' h2)).params
        else mapGet p0 (attachChild (attachChild (PathNode.new ['/'] [] none)
            (chainOf [] p0 ps' h1)) (chainOf [] q0 qs'' h2)).next)
        = some (chainOf [] p0 ps' h1) := by
      rw [if_neg (by rw [hp0]; simp)]
      cases hq0 : isParam q0 with
      | true =>
        have hseg2 : (chainOf [] q0 qs'' h2).segment = ['*'] := by
          rw [chainOf_segment]; simp [segOf, hq0]
        rw [show attachChild (attachChild (PathNode.new ['/'] [] none)
              (chainOf [] p0 ps' h1)) (chainOf [] q0 qs'' h2)
            = (attachChild (PathNode.new ['/'] [] none) (chainOf [] p0 ps' h1)).setParams
                (some (chainOf [] q0 qs'' h2)) by
          rw [attachChild, if_pos hseg2]]
        rw [hroot1eq]
        simp [mapGet]
      | false =>
        have hseg2 : (chainOf [] q0 qs'' h2).segment = q0 := by
          rw [chainOf_segment]; simp [segOf, hq0]
        have hq0star : q0 ≠ ['*'] := (hwfQ q0 (List.mem_cons_self q0 qs'')).2.2 hq0
        have hne := (hmiss q0 (List.mem_cons_self q0 qs'')).2 hp0
        rw [show attachChild (attachChild (PathNode.new ['/'] [] none)
              (chainOf [] p0 ps' h1)) (chainOf [] q0 qs'' h2)
            = (attachChild (PathNode.new ['/'] [] none) (chainOf [] p0 ps' h1)).setNext
                (mapInsert (chainOf [] q0 qs'' h2).segment (chainOf [] q0 qs'' h2)
                  (attachChild (PathNode.new ['/'] [] none) (chainOf [] p0 ps' h1)).next) by
          rw [attachChild, if_neg (by rw [hseg2]; exact hq0star)]]
        rw [hseg2, hroot1eq]
        simp only [PathNode.next_mk, PathNode.setNext_def, PathNode.params_mk]
        rw [mapGet_insert_ne q0 p0 _ _ (fun hx => hne hx.symm)]
        simp [mapGet]
    rw [walk_edge _ p0 ps' _ hedge, hm]
    simp [hhandler]

theorem claim5_amended_witness :
    ((∀ u ∈ ([("a".toList), ("b".toList)] : List Str),
        u ≠ [] ∧ '/' ∉ u ∧ (isParam u = false → u ≠ ['*']))
      ∧ (∀ u ∈ ([("c".toList), ("d".toList)] : List Str),
        u ≠ [] ∧ '/' ∉ u ∧ (isParam u = false → u ≠ ['*']))
      ∧ ([("c".toList), ("d".toList)] : List Str) ≠ []
      ∧ (∀ q ∈ ([("c".toList), ("d".toList)] : List Str),
        (isParam ("a".toList) = true → isParam q = false)
          ∧ (isParam ("a".toList) = false → q ≠ ("a".toList))))
    ∧ (walkTokens ((((RouteTree.empty_root : RouteTree Nat).add
          (patString [("a".toList), ("b".toList)]) 1).1.add
          (patString [("c".toList), ("d".toList)]) 2).1.root)
        [("a".toList), ("b".toList)]).map PathNode.handler = some (some 1) :=
  ⟨⟨by decide, by decide, by decide, by decide⟩,
    claim5_amended ("a".toList) [("b".toList)] [("c".toList), ("d".toList)] 1 2
      (by decide) (by decide) (by decide) (by decide)⟩

/-! ### Static-walk preservation lemmas for claim C2 -/

theorem walkStatic_proj_addB (qs : List Str) (n : PathNode T) (acc : Str)
    (c : PathNode T) (cs : List (PathNode T)) (h : T) (hc : c.segment = ['*']) :
    ∀ ts, (walkStatic (addB n qs acc c cs h) ts).map (fun m => (m.path, m.handler))
      = (walkStatic n ts).map (fun m => (m.path, m.handler)) := by
  induction qs generalizing n acc cs with
  | nil =>
    intro ts
    have hw : (wireChain c cs h).segment = ['*'] := by
      rw [wireChain_segment]; exact hc
    rw [show addB n [] acc c cs h = attachChild n (wireChain c cs h) from rfl]
    rw [attachChild, if_pos hw]
    cases ts with
    | nil => simp [walkStatic]
    | cons t ts' =>
      rw [show walkStatic (n.setParams (some (wireChain c cs h))) (t :: ts')
          = (match mapGet t n.next with
            | some c' => walkStatic c' ts'
            | none => none) by cases n; rfl]
      rw [show walkStatic n (t :: ts')
          = (match mapGet t n.next with
            | some c' => walkStatic c' ts'
            | none => none) from rfl]
  | cons q qs' ih =>
    intro ts
    cases hq : isParam q with
    | true =>
      cases hparams : n.params with
      | some child =>
        rw [show addB n (q :: qs') acc c cs h
            = n.setParams (some (addB child qs' (acc ++ '/' :: q) c cs h)) by
          simp only [addB, hq, hparams, if_true]]
        cases ts with
        | nil => simp [walkStatic]
        | cons t ts' =>
          rw [show walkStatic (n.setParams (some (addB child qs' (acc ++ '/' :: q) c cs h)))
                (t :: ts')
              = (match mapGet t n.next with
                | some c' => walkStatic c' ts'
                | none => none) by cases n; rfl]
          rw [show walkStatic n (t :: ts')
              = (match mapGet t n.next with
                | some c' => walkStatic c' ts'
                | none => none) from rfl]
      | none =>
        rw [show addB n (q :: qs') acc c cs h
            = addB n qs' (acc ++ '/' :: q) c (cs ++ [PathNode.new (acc ++ '/' :: q) ['*'] none]) h by
          simp only [addB, hq, hparams, if_true]]
        exact ih n _ _ ts
    | false =>
      cases hget : mapGet q n.next with
      | some child =>
        rw [show addB n (q :: qs') acc c cs h
            = n.setNext (mapInsert q (addB child qs' (acc ++ '/' :: q) c cs h) n.next) by
          simp only [addB, hq, hget, if_false, Bool.false_eq_true]]
        cases ts with
        | nil => simp [walkStatic]
        | cons t ts' =>
          rw [show walkStatic (n.setNext (mapInsert q (addB child qs' (acc ++ '/' :: q) c cs h)
                n.next)) (t :: ts')
              = (match mapGet t (mapInsert q (addB child qs' (acc ++ '/' :: q) c cs h) n.next)
                  with
                | some c' => walkStatic c' ts'
                | none => none) by cases n; rfl]
          rw [show walkStatic n (t :: ts')
              = (match mapGet t n.next with
                | some c' => walkStatic c' ts'
                | none => none) from rfl]
          by_cases htq : t = q
          · subst htq
            rw [mapGet_insert_self, hget]
            exact ih child _ _ ts'
          · rw [mapGet_insert_ne q t _ _ htq]
      | none =>
        rw [show addB n (q :: qs') acc c cs h
            = addB n qs' (acc ++ '/' :: q) c (cs ++ [PathNode.new (acc ++ '/' :: q) q none]) h by
          simp only [addB, hq, hget, if_false, Bool.false_eq_true]]
        exact ih n _ _ ts

theorem walkStatic_chainOf (ts : List Str) (acc t : Str) (h : T)
    (hst : ∀ u ∈ ts, isParam u = false) :
    ∃ m, walkStatic (chainOf acc t ts h) ts = some m
      ∧ m.path = acc ++ '/' :: t ++ patString ts ∧ m.handler = some h := by
  induction ts generalizing acc t with
  | nil =>
    refine ⟨chainOf acc t [] h, rfl, ?_, ?_⟩
    · simp [chainOf, patString]
    · simp [chainOf]
  | cons t' ts' ih =>
    have hst' : ∀ u ∈ ts', isParam u = false :=
      fun u hu => hst u (List.mem_cons_of_mem _ hu)
    obtain ⟨m, hm, hpath, hhandler⟩ := ih (acc ++ '/' :: t) t' hst'
    refine ⟨m, ?_, ?_, hhandler⟩
    · have hp := hst t' (List.mem_cons_self t' ts')
      simp [chainOf, hp, walkStatic, mapGet, hm]
    · rw [hpath]
      simp [patString]

theorem iter_getLast_of_walkStatic (ts : List Str) :
    ∀ (n m : PathNode T), walkStatic n ts = some m → ts ≠ [] →
      (iterNodes n ts).getLast? = some m := by
  induction ts with
  | nil => intro n m _ hne; exact absurd rfl hne
  | cons t ts' ih =>
    intro n m hw _
    rw [show walkStatic n (t :: ts')
        = (match mapGet t n.next with
          | some c' => walkStatic c' ts'
          | none => none) from rfl] at hw
    cases hget : mapGet t n.next with
    | none => rw [hget] at hw; exact absurd hw (by simp)
    | some c =>
      rw [hget] at hw
      have hstep : stepNode n t = some c := by simp [stepNode, hget]
      rw [show iterNodes n (t :: ts') = c :: iterNodes c ts' by simp [iterNodes, hstep]]
      cases ts' with
      | nil =>
        have hw' : walkStatic c [] = some m := hw
        have hmc : m = c := by
          rw [show walkStatic c [] = some c from rfl] at hw'
          exact (Option.some.inj hw').symm
        rw [hmc]
        rfl
      | cons t₂ ts'' =>
        have hw' : walkStatic c (t₂ :: ts'') = some m := hw
        have hrec := ih c m hw' (by simp)
        cases hiter : iterNodes c (t₂ :: ts'') with
        | nil => rw [hiter] at hrec; exact absurd hrec (by simp)
        | cons x xs =>
          rw [hiter] at hrec
          rw [List.getLast?_cons_cons]
          exact hrec

theorem walkStatic_cons (n : PathNode T) (t : Str) (ts : List Str) :
    walkStatic n (t :: ts)
      = (match mapGet t n.next with
        | some c => walkStatic c ts
        | none => none) := rfl

theorem walkStatic_proj_addA_chain (qs rest : List Str)
    (hrel : List.Forall₂ (fun q p => q = p ∨ isParam q = true) qs rest)
    (hstatic : ∀ p ∈ rest, isParam p = false)
    (hex : ∃ q ∈ qs, isParam q = true) :
    ∀ (acc0 t0 : Str) (h1 : T) (acc : Str) (h2 : T),
      (walkStatic (addA (chainOf acc0 t0 rest h1) qs acc h2) rest).map
          (fun m => (m.path, m.handler))
        = (walkStatic (chainOf acc0 t0 rest h1) rest).map
            (fun m => (m.path, m.handler)) := by
  induction hrel with
  | nil =>
    obtain ⟨q, hq, _⟩ := hex
    exact absurd hq (by simp)
  | @cons q p qs' rest' hqp htail ih =>
    intro acc0 t0 h1 acc h2
    have hp : isParam p = false := hstatic p (List.mem_cons_self p rest')
    have hstatic' : ∀ u ∈ rest', isParam u = false :=
      fun u hu => hstatic u (List.mem_cons_of_mem _ hu)
    have hN : chainOf acc0 t0 (p :: rest') h1
        = PathNode.mk (acc0 ++ '/' :: t0) (segOf t0)
            [(p, chainOf (acc0 ++ '/' :: t0) p rest' h1)] none none := by
      simp [chainOf, hp]
    rcases hqp with rfl | hqp
    · have hex' : ∃ u ∈ qs', isParam u = true := by
        obtain ⟨u, hu, hup⟩ := hex
        rcases List.mem_cons.mp hu with rfl | hu'
        · rw [hp] at hup
          exact absurd hup (by simp)
        · exact ⟨u, hu', hup⟩
      have hmget : mapGet q (chainOf acc0 t0 (q :: rest') h1).next
          = some (chainOf (acc0 ++ '/' :: t0) q rest' h1) := by
        rw [hN]
        simp [mapGet]
      rw [show addA (chainOf acc0 t0 (q :: rest') h1) (q :: qs') acc h2
          = (chainOf acc0 t0 (q :: rest') h1).setNext
              (mapInsert q
                (addA (chainOf (acc0 ++ '/' :: t0) q rest' h1) qs' (acc ++ '/' :: q) h2)
                (chainOf acc0 t0 (q :: rest') h1).next) by
        simp only [addA, hp, hmget, if_false, Bool.false_eq_true]]
      rw [hN]
      rw [show ((PathNode.mk (acc0 ++ '/' :: t0) (segOf t0)
            [(q, chainOf (acc0 ++ '/' :: t0) q rest' h1)] none none).setNext
            (mapInsert q
              (addA (chainOf (acc0 ++ '/' :: t0) q rest' h1) qs' (acc ++ '/' :: q) h2)
              (PathNode.mk (acc0 ++ '/' :: t0) (segOf t0)
                [(q, chainOf (acc0 ++ '/' :: t0) q rest' h1)] none none).next))
          = PathNode.mk (acc0 ++ '/' :: t0) (segOf t0)
              (mapInsert q
                (addA (chainOf (acc0 ++ '/' :: t0) q rest' h1) qs' (acc ++ '/' :: q) h2)
                [(q, chainOf (acc0 ++ '/' :: t0) q rest' h1)]) none none from rfl]
      rw [walkStatic_cons, walkStatic_cons]
      rw [show mapGet q (PathNode.mk (acc0 ++ '/' :: t0) (segOf t0)
            (mapInsert q
              (addA (chainOf (acc0 ++ '/' :: t0) q rest' h1) qs' (acc ++ '/' :: q) h2)
              [(q, chainOf (acc0 ++ '/' :: t0) q rest' h1)]) none none).next
          = some (addA (chainOf (acc0 ++ '/' :: t0) q rest' h1) qs' (acc ++ '/' :: q) h2) by
        simp only [PathNode.next_mk]
        exact mapGet_insert_self q _ _]
      rw [show mapGet q (PathNode.mk (acc0 ++ '/' :: t0) (segOf t0)
            [(q, chainOf (acc0 ++ '/' :: t0) q rest' h1)] none none).next
          = some (chainOf (acc0 ++ '/' :: t0) q rest' h1) by
        simp [mapGet]]
      exact ih hstatic' hex' (acc0 ++ '/' :: t0) q h1 (acc ++ '/' :: q) h2
    · rw [show addA (chainOf acc0 t0 (p :: rest') h1) (q :: qs') acc h2
          = addB (chainOf acc0 t0 (p :: rest') h1) qs' (acc ++ '/' :: q)
              (PathNode.new (acc ++ '/' :: q) ['*'] none) [] h2 by
        simp only [addA, hqp, if_true, hN, PathNode.params_mk]]
      exact walkStatic_proj_addB qs' _ _ _ _ h2 (by simp [PathNode.new]) (p :: rest')

theorem order1_walk (p0 : Str) (ps' qs : List Str) (h1 h2 : T)
    (hstatic : ∀ u ∈ p0 :: ps', isParam u = false)
    (hstar0 : p0 ≠ ['*'])
    (hrel : List.Forall₂ (fun q pp => q = pp ∨ isParam q = true) qs (p0 :: ps'))
    (hex : ∃ q ∈ qs, isParam q = true) :
    (walkStatic (addA (attachChild (PathNode.new ['/'] [] none) (chainOf [] p0 ps' h1))
        qs [] h2) (p0 :: ps')).map (fun m => (m.path, m.handler))
      = some ('/' :: p0 ++ patString ps', some h1) := by
  have hp0 : isParam p0 = false := hstatic p0 (List.mem_cons_self p0 ps')
  have hstatic' : ∀ u ∈ ps', isParam u = false :=
    fun u hu => hstatic u (List.mem_cons_of_mem _ hu)
  have hseg : (chainOf [] p0 ps' h1).segment = p0 := by
    rw [chainOf_segment]; simp [segOf, hp0]
  have hp0ne : (chainOf [] p0 ps' h1).segment = p0 := hseg
  obtain ⟨m, hm, hpath, hhandler⟩ := walkStatic_chainOf ps' [] p0 h1 hstatic'
  have hbase : ∀ nx, mapGet p0 nx = some (chainOf [] p0 ps' h1) →
      ∀ pr hd, (walkStatic (PathNode.mk ['/'] [] nx pr hd) (p0 :: ps')).map
          (fun m' => (m'.path, m'.handler))
        = some ('/' :: p0 ++ patString ps', some h1) := by
    intro nx hnx pr hd
    rw [walkStatic_cons]
    simp only [PathNode.next_mk]
    rw [hnx]
    rw [show (match some (chainOf [] p0 ps' h1) with
        | some c => walkStatic c ps'
        | none => (none : Option (PathNode T))) = walkStatic (chainOf [] p0 ps' h1) ps'
      from rfl]
    rw [hm]
    simp only [Option.map_some']
    rw [hpath, hhandler]
    simp
  by_cases hstar : (chainOf [] p0 ps' h1).segment = ['*']
  · rw [hseg] at hstar
    exact absurd hstar hstar0
  · have hroot1eq : attachChild (PathNode.new ['/'] [] none) (chainOf [] p0 ps' h1)
        = PathNode.mk ['/'] [] [(p0, chainOf [] p0 ps' h1)] none none := by
      rw [attachChild, if_neg hstar, hseg]
      simp [PathNode.new, mapInsert]
    cases hrel with
    | cons hqp htail =>
      rename_i q0 qs'
      rcases hqp with rfl | hq0
      · have hex' : ∃ u ∈ qs', isParam u = true := by
          obtain ⟨u, hu, hup⟩ := hex
          rcases List.mem_cons.mp hu with rfl | hu'
          · rw [hp0] at hup
            exact absurd hup (by simp)
          · exact ⟨u, hu', hup⟩
        have hmget : mapGet q0 (attachChild (PathNode.new ['/'] [] none)
            (chainOf [] q0 ps' h1)).next = some (chainOf [] q0 ps' h1) := by
          rw [hroot1eq]
          simp [mapGet]
        rw [show addA (attachChild (PathNode.new ['/'] [] none) (chainOf [] q0 ps' h1))
              (q0 :: qs') [] h2
            = (attachChild (PathNode.new ['/'] [] none) (chainOf [] q0 ps' h1)).setNext
                (mapInsert q0 (addA (chainOf [] q0 ps' h1) qs' ([] ++ '/' :: q0) h2)
                  (attachChild (PathNode.new ['/'] [] none) (chainOf [] q0 ps' h1)).next) by
          simp only [addA, hp0, hmget, if_false, Bool.false_eq_true]]
        rw [hroot1eq]
        rw [show ((PathNode.mk ['/'] [] [(q0, chainOf [] q0 ps' h1)] none none).setNext
              (mapInsert q0 (addA (chainOf [] q0 ps' h1) qs' ([] ++ '/' :: q0) h2)
                (PathNode.mk ['/'] [] [(q0, chainOf [] q0 ps' h1)] none none).next))
            = PathNode.mk ['/'] []
                (mapInsert q0 (addA (chainOf [] q0 ps' h1) qs' ([] ++ '/' :: q0) h2)
                  [(q0, chainOf [] q0 ps' h1)]) none none from rfl]
        rw [walkStatic_cons]
        simp only [PathNode.next_mk]
        rw [mapGet_insert_self]
        have hproj := walkStatic_proj_addA_chain qs' ps' htail hstatic' hex'
          [] q0 h1 ([] ++ '/' :: q0) h2
        rw [hproj, hm]
        simp only [Option.map_some']
        rw [hpath, hhandler]
        simp
      · rw [show addA (attachChild (PathNode.new ['/'] [] none) (chainOf [] p0 ps' h1))
              (q0 :: qs') [] h2
            = addB (attachChild (PathNode.new ['/'] [] none) (chainOf [] p0 ps' h1)) qs'
                ([] ++ '/' :: q0) (PathNode.new ([] ++ '/' :: q0) ['*'] none) [] h2 by
          simp only [addA, hq0, if_true, hroot1eq, PathNode.params_mk]]
        rw [walkStatic_proj_addB qs' _ _ _ _ h2 (by simp [PathNode.new]) (p0 :: ps')]
        rw [hroot1eq]
        exact hbase _ (by simp [mapGet]) _ _

theorem isParam_ne_nil (u : Str) (h : isParam u = true) : u ≠ [] := by
  intro hu
  rw [hu] at h
  simp [isParam] at h

theorem order2_walk_chain (qsr psr : List Str)
    (hrel : List.Forall₂ (fun q pp => q = pp ∨ isParam q = true) qsr psr)
    (hstatic : ∀ u ∈ psr, isParam u = false)
    (hstar : ∀ u ∈ psr, u ≠ ['*']) :
    ∀ (acc0 t0 : Str) (h1 h2 : T) (acc : Str),
      acc0 ++ '/' :: t0 = acc →
      ∃ m, walkStatic (addA (chainOf acc0 t0 qsr h2) psr acc h1) psr = some m
        ∧ m.path = acc ++ patString psr ∧ m.handler = some h1 := by
  induction hrel with
  | nil =>
    intro acc0 t0 h1 h2 acc hacc
    refine ⟨(chainOf acc0 t0 [] h2).setHandler (some h1), rfl, ?_, ?_⟩
    · rw [show patString [] = [] from rfl, List.append_nil, ← hacc]
      simp [chainOf]
    · simp [chainOf]
  | @cons q p qsr' psr' hqp htail ih =>
    intro acc0 t0 h1 h2 acc hacc
    have hp : isParam p = false := hstatic p (List.mem_cons_self p psr')
    have hstatic' : ∀ u ∈ psr', isParam u = false :=
      fun u hu => hstatic u (List.mem_cons_of_mem _ hu)
    have hstar' : ∀ u ∈ psr', u ≠ ['*'] :=
      fun u hu => hstar u (List.mem_cons_of_mem _ hu)
    rcases hqp with rfl | hq
    · have hN : chainOf acc0 t0 (q :: qsr') h2
          = PathNode.mk (acc0 ++ '/' :: t0) (segOf t0)
              [(q, chainOf (acc0 ++ '/' :: t0) q qsr' h2)] none none := by
        simp [chainOf, hp]
      have hmget : mapGet q (chainOf acc0 t0 (q :: qsr') h2).next
          = some (chainOf (acc0 ++ '/' :: t0) q qsr' h2) := by
        rw [hN]
        simp [mapGet]
      rw [show addA (chainOf acc0 t0 (q :: qsr') h2) (q :: psr') acc h1
          = (chainOf acc0 t0 (q :: qsr') h2).setNext
              (mapInsert q
                (addA (chainOf (acc0 ++ '/' :: t0) q qsr' h2) psr' (acc ++ '/' :: q) h1)
                (chainOf acc0 t0 (q :: qsr') h2).next) by
        simp only [addA, hp, hmget, if_false, Bool.false_eq_true]]
      obtain ⟨m, hm, hpath, hhandler⟩ := ih hstatic' hstar' (acc0 ++ '/' :: t0) q h1 h2
        (acc ++ '/' :: q) (by rw [← hacc])
      refine ⟨m, ?_, ?_, hhandler⟩
      · rw [hN]
        rw [show ((PathNode.mk (acc0 ++ '/' :: t0) (segOf t0)
              [(q, chainOf (acc0 ++ '/' :: t0) q qsr' h2)] none none).setNext
              (mapInsert q
                (addA (chainOf (acc0 ++ '/' :: t0) q qsr' h2) psr' (acc ++ '/' :: q) h1)
                (PathNode.mk (acc0 ++ '/' :: t0) (segOf t0)
                  [(q, chainOf (acc0 ++ '/' :: t0) q qsr' h2)] none none).next))
            = PathNode.mk (acc0 ++ '/' :: t0) (segOf t0)
                (mapInsert q
                  (addA (chainOf (acc0 ++ '/' :: t0) q qsr' h2) psr' (acc ++ '/' :: q) h1)
                  [(q, chainOf (acc0 ++ '/' :: t0) q qsr' h2)]) none none from rfl]
        rw [walkStatic_cons]
        simp only [PathNode.next_mk]
        rw [mapGet_insert_self]
        exact hm
      · rw [hpath]
        simp [patString]
    · have hN : chainOf acc0 t0 (q :: qsr') h2
          = PathNode.mk (acc0 ++ '/' :: t0) (segOf t0) []
              (some (chainOf (acc0 ++ '/' :: t0) q qsr' h2)) none := by
        simp [chainOf, hq]
      have hmget : mapGet p (chainOf acc0 t0 (q :: qsr') h2).next = none := by
        rw [hN]
        rfl
      rw [show addA (chainOf acc0 t0 (q :: qsr') h2) (p :: psr') acc h1
          = addB (chainOf acc0 t0 (q :: qsr') h2) psr' (acc ++ '/' :: p)
              (PathNode.new (acc ++ '/' :: p) p none) [] h1 by
        simp only [addA, hp, hmget, if_false, Bool.false_eq_true]]
      have hfree : ∀ u ∈ psr',
          (isParam u = true → (chainOf acc0 t0 (q :: qsr') h2).params = none)
          ∧ (isParam u = false → mapGet u (chainOf acc0 t0 (q :: qsr') h2).next = none) := by
        intro u hu
        constructor
        · intro hup
          rw [hstatic' u hu] at hup
          exact absurd hup (by simp)
        · intro _
          rw [hN]
          rfl
      rw [addB_no_descend psr' _ _ _ _ _ hfree]
      rw [show (PathNode.new (acc ++ '/' :: p) p none : PathNode T)
          = PathNode.new (acc ++ '/' :: p) (segOf p) none by simp [segOf, hp]]
      rw [List.nil_append,
        wireChain_newNodes psr' acc p h1 (fun u hu _ => hstar' u hu)]
      have hseg2 : (chainOf acc p psr' h1).segment = p := by
        rw [chainOf_segment]; simp [segOf, hp]
      have hpstar : p ≠ ['*'] := hstar p (List.mem_cons_self p psr')
      rw [show attachChild (chainOf acc0 t0 (q :: qsr') h2) (chainOf acc p psr' h1)
          = (chainOf acc0 t0 (q :: qsr') h2).setNext
              (mapInsert (chainOf acc p psr' h1).segment (chainOf acc p psr' h1)
                (chainOf acc0 t0 (q :: qsr') h2).next) by
        rw [attachChild, if_neg (by rw [hseg2]; exact hpstar)]]
      obtain ⟨m, hm, hpath, hhandler⟩ := walkStatic_chainOf psr' acc p h1 hstatic'
      refine ⟨m, ?_, ?_, hhandler⟩
      · rw [hseg2, hN]
        rw [walkStatic_cons]
        simp only [PathNode.setNext_def, PathNode.next_mk]
        rw [show mapGet p (mapInsert p (chainOf acc p psr' h1) []) 
            = some (chainOf acc p psr' h1) from mapGet_insert_self p _ _]
        exact hm
      · rw [hpath]
        simp [patString]

theorem order2_walk (p0 q0 : Str) (ps' qs' : List Str) (h1 h2 : T)
    (hstatic : ∀ u ∈ p0 :: ps', isParam u = false)
    (hstarP : ∀ u ∈ p0 :: ps', u ≠ ['*'])
    (hq0 : q0 = p0 ∨ isParam q0 = true)
    (htail : List.Forall₂ (fun q pp => q = pp ∨ isParam q = true) qs' ps') :
    ∃ m, walkStatic (addA (attachChild (PathNode.new ['/'] [] none)
        (chainOf [] q0 qs' h2)) (p0 :: ps') [] h1) (p0 :: ps') = some m
      ∧ m.path = '/' :: p0 ++ patString ps' ∧ m.handler = some h1 := by
  have hp0 : isParam p0 = false := hstatic p0 (List.mem_cons_self p0 ps')
  have hstatic' : ∀ u ∈ ps', isParam u = false :=
    fun u hu => hstatic u (List.mem_cons_of_mem _ hu)
  have hstarP' : ∀ u ∈ ps', u ≠ ['*'] :=
    fun u hu => hstarP u (List.mem_cons_of_mem _ hu)
  rcases hq0 with rfl | hq0
  · have hsegq : (chainOf [] q0 qs' h2).segment = q0 := by
      rw [chainOf_segment]; simp [segOf, hp0]
    have hroot1eq : attachChild (PathNode.new ['/'] [] none) (chainOf [] q0 qs' h2)
        = PathNode.mk ['/'] [] [(q0, chainOf [] q0 qs' h2)] none none := by
      rw [attachChild, if_neg (by rw [hsegq]; exact hstarP q0 (List.mem_cons_self q0 ps'))]
      rw [hsegq]
      simp [PathNode.new, mapInsert]
    have hmget : mapGet q0 (attachChild (PathNode.new ['/'] [] none)
        (chainOf [] q0 qs' h2)).next = some (chainOf [] q0 qs' h2) := by
      rw [hroot1eq]
      simp [mapGet]
    rw [show addA (attachChild (PathNode.new ['/'] [] none) (chainOf [] q0 qs' h2))
          (q0 :: ps') [] h1
        = (attachChild (PathNode.new ['/'] [] none) (chainOf [] q0 qs' h2)).setNext
            (mapInsert q0 (addA (chainOf [] q0 qs' h2) ps' ([] ++ '/' :: q0) h1)
              (attachChild (PathNode.new ['/'] [] none) (chainOf [] q0 qs' h2)).next) by
      simp only [addA, hp0, hmget, if_false, Bool.false_eq_true]]
    obtain ⟨m, hm, hpath, hhandler⟩ := order2_walk_chain qs' ps' htail hstatic' hstarP'
      [] q0 h1 h2 ([] ++ '/' :: q0) rfl
    refine ⟨m, ?_, ?_, hhandler⟩
    · rw [hroot1eq]
      rw [show ((PathNode.mk ['/'] [] [(q0, chainOf [] q0 qs' h2)] none none).setNext
            (mapInsert q0 (addA (chainOf [] q0 qs' h2) ps' ([] ++ '/' :: q0) h1)
              (PathNode.mk ['/'] [] [(q0, chainOf [] q0 qs' h2)] none none).next))
          = PathNode.mk ['/'] []
              (mapInsert q0 (addA (chainOf [] q0 qs' h2) ps' ([] ++ '/' :: q0) h1)
                [(q0, chainOf [] q0 qs' h2)]) none none from rfl]
      rw [walkStatic_cons]
      simp only [PathNode.next_mk]
      rw [mapGet_insert_self]
      exact hm
    · rw [hpath]
      simp [patString]
  · have hsegq : (chainOf [] q0 qs' h2).segment = ['*'] := by
      rw [chainOf_segment]; simp [segOf, hq0]
    have hroot1eq : attachChild (PathNode.new ['/'] [] none) (chainOf [] q0 qs' h2)
        = PathNode.mk ['/'] [] [] (some (chainOf [] q0 qs' h2)) none := by
      rw [attachChild, if_pos hsegq]
      simp [PathNode.new]
    have hmget : mapGet p0 (attachChild (PathNode.new ['/'] [] none)
        (chainOf [] q0 qs' h2)).next = none := by
      rw [hroot1eq]
      rfl
    rw [show addA (attachChild (PathNode.new ['/'] [] none) (chainOf [] q0 qs' h2))
          (p0 :: ps') [] h1
        = addB (attachChild (PathNode.new ['/'] [] none) (chainOf [] q0 qs' h2)) ps'
            ([] ++ '/' :: p0) (PathNode.new ([] ++ '/' :: p0) p0 none) [] h1 by
      simp only [addA, hp0, hmget, if_false, Bool.false_eq_true]]
    have hfree : ∀ u ∈ ps',
        (isParam u = true →
          (attachChild (PathNode.new ['/'] [] none) (chainOf [] q0 qs' h2)).params = none)
        ∧ (isParam u = false →
          mapGet u (attachChild (PathNode.new ['/'] [] none) (chainOf [] q0 qs' h2)).next
            = none) := by
      intro u hu
      constructor
      · intro hup
        rw [hstatic' u hu] at hup
        exact absurd hup (by simp)
      · intro _
        rw [hroot1eq]
        rfl
    rw [addB_no_descend ps' _ _ _ _ _ hfree]
    rw [show (PathNode.new ([] ++ '/' :: p0) p0 none : PathNode T)
        = PathNode.new ([] ++ '/' :: p0) (segOf p0) none by simp [segOf, hp0]]
    have hwire : wireChain (PathNode.new ('/' :: p0) (segOf p0) none)
        (newNodes ('/' :: p0) ps') h1 = chainOf [] p0 ps' h1 := by
      have hw := wireChain_newNodes ps' [] p0 h1 (fun u hu _ => hstarP' u hu)
      simpa using hw
    simp only [List.nil_append]
    rw [hwire]
    have hseg2 : (chainOf [] p0 ps' h1).segment = p0 := by
      rw [chainOf_segment]; simp [segOf, hp0]
    rw [show attachChild (attachChild (PathNode.new ['/'] [] none) (chainOf [] q0 qs' h2))
          (chainOf [] p0 ps' h1)
        = (attachChild (PathNode.new ['/'] [] none) (chainOf [] q0 qs' h2)).setNext
            (mapInsert (chainOf [] p0 ps' h1).segment (chainOf [] p0 ps' h1)
              (attachChild (PathNode.new ['/'] [] none) (chainOf [] q0 qs' h2)).next) by
      rw [attachChild, if_neg (by rw [hseg2]; exact hstarP p0 (List.mem_cons_self p0 ps'))]]
    obtain ⟨m, hm, hpath, hhandler⟩ := walkStatic_chainOf ps' [] p0 h1 hstatic'
    refine ⟨m, ?_, ?_, hhandler⟩
    · rw [hseg2, hroot1eq]
      rw [walkStatic_cons]
      simp only [PathNode.setNext_def, PathNode.next_mk]
      rw [show mapGet p0 (mapInsert p0 (chainOf [] p0 ps' h1) [])
          = some (chainOf [] p0 ps' h1) from mapGet_insert_self p0 _ _]
      exact hm
    · rw [hpath]
      rfl

theorem rel_tokens_wf (qs ps : List Str)
    (hrel : List.Forall₂ (fun q pp => q = pp ∨ isParam q = true) qs ps) :
    (∀ u ∈ ps, u ≠ []) → (∀ u ∈ qs, '/' ∉ u) → ∀ u ∈ qs, u ≠ [] ∧ '/' ∉ u := by
  induction hrel with
  | nil =>
    intro _ _ u hu
    exact absurd hu (by simp)
  | @cons q p qs' ps' hqp htail ih =>
    intro hne hfree u hu
    rcases List.mem_cons.mp hu with rfl | hu'
    · refine ⟨?_, hfree u (List.mem_cons_self u qs')⟩
      rcases hqp with rfl | hq
      · exact hne u (List.mem_cons_self u ps')
      · exact isParam_ne_nil u hq
    · exact ih (fun v hv => hne v (List.mem_cons_of_mem _ hv))
        (fun v hv => hfree v (List.mem_cons_of_mem _ hv)) u hu'

theorem rel_tokens_star (qs ps : List Str)
    (hrel : List.Forall₂ (fun q pp => q = pp ∨ isParam q = true) qs ps) :
    (∀ u ∈ ps, u ≠ ['*']) → ∀ u ∈ qs, isParam u = false → u ≠ ['*'] := by
  induction hrel with
  | nil =>
    intro _ u hu
    exact absurd hu (by simp)
  | @cons q p qs' ps' hqp htail ih =>
    intro hstar u hu hup
    rcases List.mem_cons.mp hu with rfl | hu'
    · rcases hqp with rfl | hq
      · exact hstar u (List.mem_cons_self u ps')
      · rw [hq] at hup
        exact absurd hup (by simp)
    · exact ih (fun v hv => hstar v (List.mem_cons_of_mem _ hv)) u hu' hup

theorem empty_root_root : (RouteTree.empty_root : RouteTree T).root
    = PathNode.new ['/'] [] none := rfl

/-- Claim C2: let `p` be a pattern of non-empty static segments (none
spelled `"*"` or containing `'/'`), and `q` a pattern of the same
length obtained from `p` by replacing at least one static segment with
a parameter segment.  Adding both to an empty tree — in either order —
and dispatching `p`'s own path returns `p`'s handler: at every level
the matching static child is preferred over the parameter child. -/
theorem claim2_static_beats_param (p0 : Str) (ps' qs : List Str) (h1 h2 : T)
    (hwfP : ∀ u ∈ p0 :: ps', u ≠ [] ∧ '/' ∉ u ∧ isParam u = false ∧ u ≠ ['*'])
    (hfreeQ : ∀ u ∈ qs, '/' ∉ u)
    (hrel : List.Forall₂ (fun q pp => q = pp ∨ isParam q = true) qs (p0 :: ps'))
    (hex : ∃ q ∈ qs, isParam q = true) :
    ((((RouteTree.empty_root : RouteTree T).add (patString (p0 :: ps')) h1).1.add
        (patString qs) h2).1).dispatch (patString (p0 :: ps'))
      = some (patString (p0 :: ps'), some h1)
    ∧ ((((RouteTree.empty_root : RouteTree T).add (patString qs) h2).1.add
        (patString (p0 :: ps')) h1).1).dispatch (patString (p0 :: ps'))
      = some (patString (p0 :: ps'), some h1) := by
  have hwfP2 : ∀ u ∈ p0 :: ps', u ≠ [] ∧ '/' ∉ u :=
    fun u hu => ⟨(hwfP u hu).1, (hwfP u hu).2.1⟩
  have hstaticP : ∀ u ∈ p0 :: ps', isParam u = false :=
    fun u hu => (hwfP u hu).2.2.1
  have hstarP : ∀ u ∈ p0 :: ps', u ≠ ['*'] :=
    fun u hu => (hwfP u hu).2.2.2
  have hwfQ2 : ∀ u ∈ qs, u ≠ [] ∧ '/' ∉ u :=
    rel_tokens_wf qs (p0 :: ps') hrel (fun u hu => (hwfP u hu).1) hfreeQ
  have hstarQ : ∀ u ∈ qs, isParam u = false → u ≠ ['*'] :=
    rel_tokens_star qs (p0 :: ps') hrel hstarP
  have hqne : qs ≠ [] := by
    cases hrel
    simp
  constructor
  · rw [add_patString (RouteTree.empty_root : RouteTree T) (p0 :: ps') h1 (by simp) hwfP2]
    rw [empty_root_root]
    rw [addA_childless (PathNode.new ['/'] [] none) p0 ps' [] h1 rfl rfl
      (fun u hu _ => hstarP u (List.mem_cons_of_mem _ hu))]
    rw [add_patString _ qs h2 hqne hwfQ2]
    rw [dispatch_patString _ (p0 :: ps') (by simp) hwfP2]
    rw [RouteTree.root_mk, RouteTree.root_mk]
    have hwalkproj := order1_walk p0 ps' qs h1 h2 hstaticP
      (hstarP p0 (List.mem_cons_self p0 ps')) hrel hex
    obtain ⟨m, hwalk, hfm⟩ := Option.map_eq_some'.mp hwalkproj
    have hfm' : (m.path, m.handler) = ('/' :: p0 ++ patString ps', some h1) := hfm
    have hlast := iter_getLast_of_walkStatic (p0 :: ps') _ m hwalk (by simp)
    rw [hlast]
    rw [show (match some m with
        | some mm => some (mm.path, mm.handler)
        | none => (none : Option (Str × Option T))) = some (m.path, m.handler) from rfl]
    rw [show patString (p0 :: ps') = '/' :: p0 ++ patString ps' from rfl]
    rw [hfm']
  · cases hrel with
    | cons hq0 htail =>
      rename_i q0 qs'
      have hstarQ' : ∀ u ∈ qs', isParam u = false → u ≠ ['*'] :=
        fun u hu => hstarQ u (List.mem_cons_of_mem _ hu)
      rw [add_patString (RouteTree.empty_root : RouteTree T) (q0 :: qs') h2 (by simp) hwfQ2]
      rw [empty_root_root]
      rw [addA_childless (PathNode.new ['/'] [] none) q0 qs' [] h2 rfl rfl hstarQ']
      rw [add_patString _ (p0 :: ps') h1 (by simp) hwfP2]
      rw [dispatch_patString _ (p0 :: ps') (by simp) hwfP2]
      rw [RouteTree.root_mk, RouteTree.root_mk]
      obtain ⟨m, hwalk, hpath, hhandler⟩ := order2_walk p0 q0 ps' qs' h1 h2
        hstaticP hstarP hq0 htail
      have hlast := iter_getLast_of_walkStatic (p0 :: ps') _ m hwalk (by simp)
      rw [hlast]
      rw [show (match some m with
          | some mm => some (mm.path, mm.handler)
          | none => (none : Option (Str × Option T))) = some (m.path, m.handler) from rfl]
      rw [show patString (p0 :: ps') = '/' :: p0 ++ patString ps' from rfl]
      rw [hpath, hhandler]

theorem claim2_witness :
    ((∀ u ∈ ([("foo".toList), ("bar".toList)] : List Str),
        u ≠ [] ∧ '/' ∉ u ∧ isParam u = false ∧ u ≠ ['*'])
      ∧ (∀ u ∈ ([("foo".toList), (":id".toList)] : List Str), '/' ∉ u)
      ∧ (∃ q ∈ ([("foo".toList), (":id".toList)] : List Str), isParam q = true))
    ∧ (((((RouteTree.empty_root : RouteTree Nat).add
          (patString [("foo".toList), ("bar".toList)]) 1).1.add
          (patString [("foo".toList), (":id".toList)]) 2).1).dispatch
          (patString [("foo".toList), ("bar".toList)])
        = some (patString [("foo".toList), ("bar".toList)], some 1)
      ∧ ((((RouteTree.empty_root : RouteTree Nat).add
          (patString [("foo".toList), (":id".toList)]) 2).1.add
          (patString [("foo".toList), ("bar".toList)]) 1).1).dispatch
          (patString [("foo".toList), ("bar".toList)])
        = some (patString [("foo".toList), ("bar".toList)], some 1)) :=
  ⟨⟨by decide, by decide, ⟨(":id".toList), by decide, by decide⟩⟩,
    claim2_static_beats_param ("foo".toList) [("bar".toList)]
      [("foo".toList), (":id".toList)] 1 2 (by decide) (by decide)
      (List.Forall₂.cons (Or.inl rfl)
        (List.Forall₂.cons (Or.inr (by decide)) List.Forall₂.nil))
      ⟨(":id".toList), by decide, by decide⟩⟩
